import Mathlib

/-!
Shallow embedding of the instrumented sorting engine (`SortingAlgorithms` in the
repository's algorithm module) and proofs of the behavioural claims made by its
specification.

Modelling conventions:
* JS arrays of integers become `List Int`; `a[i]` becomes `List.getD a i 0`
  (every access performed by the engine is in bounds, which the proofs track).
* The destructuring swap `[a[i], a[j]] = [a[j], a[i]]` reads both cells before
  writing, hence `swapL` below reads from the original list twice.
* Wall-clock timing (`executionTime`) is environment-dependent and is omitted
  from the result bundle; no claim talks about its value.
* The `MAX_ARRAY_SIZE` environment variable becomes an explicit `maxSize`
  parameter of the dispatcher.
* The thrown `Error`s of the dispatcher become a typed failure enumeration, as
  in the specification's error taxonomy, and `sort` returns an `Except`.
-/

/-- One entry of a trace: full snapshot, pair of touched indices (absent for
the initial snapshot), and the cumulative comparison counter at push time. -/
structure Step where
  array : List Int
  swapIndices : Option (Nat × Nat)
  comparisonCount : Nat
deriving DecidableEq, Repr

/-- The result bundle returned by an executor or by the fast path. -/
structure SortResult where
  steps : List Step
  sortedArray : List Int
  algorithmType : String
  totalComparisons : Nat
deriving DecidableEq, Repr

/-- Failure taxonomy of the dispatcher (the source throws `Error`s with
corresponding messages). -/
inductive SortFailure where
  | InvalidInputKind
  | EmptyInputKind
  | SizeLimitExceededKind
  | UnsupportedAlgorithmKind
deriving DecidableEq, Repr

/-- The dynamically-typed argument of `sort`: either an integer array or some
non-array JS value (only its non-arrayness matters to the dispatcher). -/
inductive JsInput where
  | arr (l : List Int)
  | nonArray
deriving DecidableEq, Repr

/-- `[l[i], l[j]] = [l[j], l[i]]`: both cells are read before either write. -/
def swapL (l : List Int) (i j : Nat) : List Int :=
  (l.set i (l.getD j 0)).set j (l.getD i 0)

namespace SortingAlgorithms

/-- Inner loop of `bubbleSort`: `for (j = …; j < length - 1 - i; j++)`,
`rem` iterations remaining, comparing `a[j]` with `a[j+1]` and swapping
(recording a step) when out of order. -/
def bubbleInner : List Int → List Step → Nat → Bool → Nat → Nat →
    List Int × List Step × Nat × Bool
  | a, steps, cmp, swapped, _j, 0 => (a, steps, cmp, swapped)
  | a, steps, cmp, swapped, j, rem + 1 =>
    let cmp' := cmp + 1
    if a.getD j 0 > a.getD (j+1) 0 then
      let a' := swapL a j (j+1)
      bubbleInner a' (steps ++ [⟨a', some (j, j+1), cmp'⟩]) cmp' true (j+1) rem
    else
      bubbleInner a steps cmp' swapped (j+1) rem

/-- Outer loop of `bubbleSort`: `for (i = 0; i < length - 1; i++)`, with the
early exit `if (!swapped) break` after a pass with no swap. -/
def bubbleOuter : List Int → List Step → Nat → Nat → Nat →
    List Int × List Step × Nat
  | a, steps, cmp, _i, 0 => (a, steps, cmp)
  | a, steps, cmp, i, rem + 1 =>
    match bubbleInner a steps cmp false 0 (a.length - 1 - i) with
    | (a', steps', cmp', swapped) =>
      if swapped then bubbleOuter a' steps' cmp' (i+1) rem
      else (a', steps', cmp')

/-- `SortingAlgorithms.bubbleSort`. -/
def bubbleSort (arr : List Int) : SortResult :=
  let steps : List Step := [⟨arr, none, 0⟩]
  match bubbleOuter arr steps 0 0 (arr.length - 1) with
  | (a, st, cmp) => ⟨st, a, "bubble", cmp⟩

/-- Inner scan of `selectionSort`: `for (j = i+1; j < length; j++)`, counting a
comparison per candidate and tracking the index of the running minimum. -/
def selScan : List Int → Nat → Nat → Nat → Nat → Nat × Nat
  | _a, minIndex, cmp, _j, 0 => (minIndex, cmp)
  | a, minIndex, cmp, j, rem + 1 =>
    let cmp' := cmp + 1
    if a.getD j 0 < a.getD minIndex 0 then selScan a j cmp' (j+1) rem
    else selScan a minIndex cmp' (j+1) rem

/-- Outer loop of `selectionSort`: after each scan, swap (and record a step)
only when the minimum is not already at position `i`. -/
def selOuter : List Int → List Step → Nat → Nat → Nat →
    List Int × List Step × Nat
  | a, steps, cmp, _i, 0 => (a, steps, cmp)
  | a, steps, cmp, i, rem + 1 =>
    match selScan a i cmp (i+1) (a.length - (i+1)) with
    | (minIndex, cmp') =>
      if minIndex ≠ i then
        let a' := swapL a i minIndex
        selOuter a' (steps ++ [⟨a', some (i, minIndex), cmp'⟩]) cmp' (i+1) rem
      else selOuter a steps cmp' (i+1) rem

/-- `SortingAlgorithms.selectionSort`. -/
def selectionSort (arr : List Int) : SortResult :=
  let steps : List Step := [⟨arr, none, 0⟩]
  match selOuter arr steps 0 0 (arr.length - 1) with
  | (a, st, cmp) => ⟨st, a, "selection", cmp⟩

/-- Shift loop of `insertionSort`: `while (j >= 0) { cmp++; if (a[j] > key)
{shift; j--} else break }`, with `jp` standing for the Nat value `j + 1`.
Returns the state together with the key's resting index `j + 1`. -/
def insInner : List Int → List Step → Nat → Int → Nat →
    List Int × List Step × Nat × Nat
  | a, steps, cmp, _key, 0 => (a, steps, cmp, 0)
  | a, steps, cmp, key, jp + 1 =>
    let cmp' := cmp + 1
    if a.getD jp 0 > key then
      let a' := a.set (jp+1) (a.getD jp 0)
      insInner a' (steps ++ [⟨a', some (jp, jp+1), cmp'⟩]) cmp' key jp
    else
      (a, steps, cmp', jp + 1)

/-- Outer loop of `insertionSort`: `for (i = 1; i < length; i++)`; after the
shift loop the key is written at its resting index, and a placement step is
recorded only when that index differs from `i`. -/
def insOuter : List Int → List Step → Nat → Nat → Nat →
    List Int × List Step × Nat
  | a, steps, cmp, _i, 0 => (a, steps, cmp)
  | a, steps, cmp, i, rem + 1 =>
    let key := a.getD i 0
    match insInner a steps cmp key i with
    | (a', steps', cmp', jp) =>
      let a'' := a'.set jp key
      if jp ≠ i then
        insOuter a'' (steps' ++ [⟨a'', some (jp, i), cmp'⟩]) cmp' (i+1) rem
      else insOuter a'' steps' cmp' (i+1) rem

/-- `SortingAlgorithms.insertionSort`. -/
def insertionSort (arr : List Int) : SortResult :=
  let steps : List Step := [⟨arr, none, 0⟩]
  match insOuter arr steps 0 1 (arr.length - 1) with
  | (a, st, cmp) => ⟨st, a, "insertion", cmp⟩

/-- Working state of the quicksort executor. -/
structure QState where
  a : List Int
  steps : List Step
  cmp : Nat
deriving DecidableEq, Repr

/-- Partition loop of `quickSort`: `for (j = …; j < high; j++)`, with `i1`
standing for the Nat value `i + 1` (the source initialises `i = low - 1`).
On `a[j] < pivot` the source increments `i` and swaps `(i, j)` when they
differ, recording a step. -/
def qLoop : QState → Int → Nat → Nat → Nat → QState × Nat
  | st, _pivot, i1, _j, 0 => (st, i1)
  | st, pivot, i1, j, rem + 1 =>
    let cmp' := st.cmp + 1
    if st.a.getD j 0 < pivot then
      if i1 ≠ j then
        let a' := swapL st.a i1 j
        qLoop ⟨a', st.steps ++ [⟨a', some (i1, j), cmp'⟩], cmp'⟩ pivot (i1+1) (j+1) rem
      else
        qLoop ⟨st.a, st.steps, cmp'⟩ pivot (i1+1) (j+1) rem
    else
      qLoop ⟨st.a, st.steps, cmp'⟩ pivot i1 (j+1) rem

/-- Lomuto partition of `quickSort` (pivot `a[high]`): after the loop, the
source swaps `(i+1, high)` when they differ (recording a step) and returns
`i + 1`. -/
def qPartition (st : QState) (low high : Nat) : QState × Nat :=
  let pivot := st.a.getD high 0
  match qLoop st pivot low low (high - low) with
  | (st', i1) =>
    if i1 ≠ high then
      let a' := swapL st'.a i1 high
      (⟨a', st'.steps ++ [⟨a', some (i1, high), st'.cmp⟩], st'.cmp⟩, i1)
    else (st', i1)

/-- `quickSortHelper`: recurse on the left partition first, then the right.
The source's recursion is well-founded because the partition index lies in
`[low, high]`, so `high + 1 - low` strictly decreases; the embedding carries
that measure as an explicit structural bound (`fuel`), and the proofs below
establish that any `fuel ≥ high + 1 - low` gives the same result, so the
bound used by `quickSort` never runs out. -/
def qSortHelper : Nat → QState → Nat → Nat → QState
  | 0, st, _low, _high => st
  | fuel + 1, st, low, high =>
    if low < high then
      match qPartition st low high with
      | (st1, p) => qSortHelper fuel (qSortHelper fuel st1 low (p - 1)) (p + 1) high
    else st

/-- `SortingAlgorithms.quickSort` (the bound `length + 1` dominates
`(length - 1) + 1 - 0`, the measure of the top-level call). -/
def quickSort (arr : List Int) : SortResult :=
  let st0 : QState := ⟨arr, [⟨arr, none, 0⟩], 0⟩
  match qSortHelper (arr.length + 1) st0 0 (arr.length - 1) with
  | st => ⟨st.steps, st.a, "quick", st.cmp⟩

/-- The fast-path test `array.every((val, i) => i === 0 || array[i-1] <= val)`. -/
def isAlreadySorted (array : List Int) : Bool :=
  (List.range array.length).all fun i =>
    i == 0 || decide (array.getD (i-1) 0 ≤ array.getD i 0)

/-- `algorithm.toLowerCase()`: JS lowercases character by character, which on
the ASCII identifiers involved agrees with `Char.toLower` applied to each
character. (`String.toLower` itself is defined by well-founded recursion over
byte positions and does not reduce inside the kernel, so the embedding maps
over the character list instead.) -/
def toLowerCase (s : String) : String := ⟨s.data.map Char.toLower⟩

/-- `SortingAlgorithms.sort`: input validation, already-sorted fast path, then
case-insensitive dispatch over the algorithm identifier. -/
def sort (maxSize : Nat) (input : JsInput) (algorithm : String) :
    Except SortFailure SortResult :=
  match input with
  | .nonArray => .error .InvalidInputKind
  | .arr array =>
    if array.length = 0 then .error .EmptyInputKind
    else if array.length > maxSize then .error .SizeLimitExceededKind
    else if isAlreadySorted array then
      .ok ⟨[⟨array, none, 0⟩], array, algorithm, 0⟩
    else
      match toLowerCase algorithm with
      | "bubble" => .ok (bubbleSort array)
      | "quick" => .ok (quickSort array)
      | "selection" => .ok (selectionSort array)
      | "insertion" => .ok (insertionSort array)
      | _ => .error .UnsupportedAlgorithmKind

/-- The enumerated set of algorithm identifiers accepted by the dispatch. -/
def supportedIdentifiers : List String := ["bubble", "quick", "selection", "insertion"]

end SortingAlgorithms

/-- Adds a base comparison count to a recorded step; the specification model
of the insertion executor builds each pass's shift steps with pass-local
counts first and rebases them onto the running counter afterwards. -/
def Step.bump (base : Nat) (s : Step) : Step :=
  ⟨s.array, s.swapIndices, base + s.comparisonCount⟩

/-- Modelled from the spec, §4.2 Insertion: "shift the key leftward while the
left neighbor exceeds it, counting one comparison per neighbor examined; each
leftward shift is its own recorded step (`touchedIndices = [j, j+1]`)".
Given the hole position, returns the shifted array, the shift steps (with
pass-local comparison counts), the number of neighbors examined, and the
key's resting index. -/
def specShift (a : List Int) (key : Int) : Nat → List Int × List Step × Nat × Nat
  | 0 => (a, [], 0, 0)
  | j + 1 =>
    if key < a.getD j 0 then
      let a1 := a.set (j+1) (a.getD j 0)
      match specShift a1 key j with
      | (a', ss, ex, r) => (a', ⟨a1, some (j, j+1), 1⟩ :: ss.map (Step.bump 1), 1 + ex, r)
    else (a, [], 1, j + 1)

/-- Modelled from the spec, §4.2 Insertion, the pass for position `i`: run the
shift walk for the key `a[i]`, place the key at its resting index, and "after
the shift loop ends, if the key's final resting index differs from `i`,
record one final step placing the key (`touchedIndices = [restingIndex, i]`);
if it lands at `i`, emit nothing". -/
def specInsertPass (a : List Int) (steps : List Step) (cmp : Nat) (i : Nat) :
    List Int × List Step × Nat :=
  let key := a.getD i 0
  match specShift a key i with
  | (a', ss, ex, r) =>
    let cmp' := cmp + ex
    let placed := a'.set r key
    if r ≠ i then
      (placed, steps ++ ss.map (Step.bump cmp) ++ [⟨placed, some (r, i), cmp'⟩], cmp')
    else (placed, steps ++ ss.map (Step.bump cmp), cmp')

/-- Modelled from the spec, §4.2 Insertion: one pass "for each position `i`
from 1..n-1". -/
def specInsOuter : List Int → List Step → Nat → Nat → Nat →
    List Int × List Step × Nat
  | a, steps, cmp, _i, 0 => (a, steps, cmp)
  | a, steps, cmp, i, rem + 1 =>
    match specInsertPass a steps cmp i with
    | (a', steps', cmp') => specInsOuter a' steps' cmp' (i+1) rem

/-- Modelled from the spec, §4.2 Insertion together with §4.2's last bullet
(all executors prepend the unmodified-input snapshot as step 0). -/
def insertionSortSpecModel (arr : List Int) : SortResult :=
  let steps : List Step := [⟨arr, none, 0⟩]
  match specInsOuter arr steps 0 1 (arr.length - 1) with
  | (a, st, cmp) => ⟨st, a, "insertion", cmp⟩

/-- Pointwise form of "non-decreasing" used by the loop invariants. -/
def SortedD (a : List Int) : Prop :=
  ∀ k l, k < l → l < a.length → a.getD k 0 ≤ a.getD l 0

/-- Invariant threaded through every executor loop: the trace starts with the
pristine snapshot of the original input `arr0`, its last entry snapshots the
current working array `a`, recorded comparison counters are non-decreasing
along the trace and bounded by the running counter `cmp`, and every entry
after the initial snapshot carries an in-bounds pair of distinct touched
indices (`n` is the input length). -/
structure TraceInv (n : Nat) (arr0 a : List Int) (cmp : Nat) (steps : List Step) : Prop where
  head_eq : steps.head? = some ⟨arr0, none, 0⟩
  last_array : steps.getLast?.map Step.array = some a
  last_cmp_le : ∀ s ∈ steps.getLast?, s.comparisonCount ≤ cmp
  chain : steps.Chain' (fun s t => s.comparisonCount ≤ t.comparisonCount)
  tail_touched : ∀ s ∈ steps.tail,
    ∃ p, s.swapIndices = some p ∧ p.1 < n ∧ p.2 < n ∧ p.1 ≠ p.2

/-- What each code path of the engine guarantees about a returned bundle:
the final array is a sorted permutation of the input and the trace satisfies
`TraceInv` with the final array, counter and input length. -/
def ExecutorOK (arr : List Int) (r : SortResult) : Prop :=
  r.sortedArray.Perm arr ∧ List.Sorted (· ≤ ·) r.sortedArray ∧
    TraceInv arr.length arr r.sortedArray r.totalComparisons r.steps

/-! ### Basic list infrastructure -/

theorem getD_set_self (l : List Int) (i : Nat) (v : Int) (h : i < l.length) :
    (l.set i v).getD i 0 = v := by
  induction l generalizing i with
  | nil => simp at h
  | cons b t ih =>
    cases i with
    | zero => simp [List.set, List.getD]
    | succ i => simpa [List.set, List.getD] using ih i (by simpa using h)

theorem getD_set_ne (l : List Int) (i k : Nat) (v : Int) (h : i ≠ k) :
    (l.set i v).getD k 0 = l.getD k 0 := by
  induction l generalizing i k with
  | nil => simp [List.set]
  | cons b t ih =>
    cases i with
    | zero =>
      cases k with
      | zero => exact absurd rfl h
      | succ k => simp [List.set, List.getD]
    | succ i =>
      cases k with
      | zero => simp [List.set, List.getD]
      | succ k =>
        simpa [List.set, List.getD] using ih i k (by omega)

theorem set_getD_self (l : List Int) (i : Nat) : l.set i (l.getD i 0) = l := by
  induction l generalizing i with
  | nil => simp
  | cons b t ih =>
    cases i with
    | zero => simp [List.getD_cons_zero]
    | succ i =>
      rw [List.getD_cons_succ]
      show b :: t.set i (t.getD i 0) = b :: t
      rw [ih i]

theorem eq_of_getD (l1 l2 : List Int) (hlen : l1.length = l2.length)
    (h : ∀ k, l1.getD k 0 = l2.getD k 0) : l1 = l2 := by
  induction l1 generalizing l2 with
  | nil => cases l2 with
    | nil => rfl
    | cons b t => simp at hlen
  | cons a t1 ih =>
    cases l2 with
    | nil => simp at hlen
    | cons b t2 =>
      have h0 := h 0
      simp [List.getD] at h0
      have ht : t1 = t2 := by
        refine ih t2 (by simpa using hlen) fun k => ?_
        have := h (k+1)
        simpa [List.getD] using this
      rw [h0, ht]

theorem swapL_length (l : List Int) (i j : Nat) : (swapL l i j).length = l.length := by
  simp [swapL]

theorem swapL_getD_right (l : List Int) (i j : Nat) (hj : j < l.length) :
    (swapL l i j).getD j 0 = l.getD i 0 := by
  unfold swapL
  exact getD_set_self _ j _ (by simpa using hj)

theorem swapL_getD_left (l : List Int) (i j : Nat) (hi : i < l.length) (hij : i ≠ j) :
    (swapL l i j).getD i 0 = l.getD j 0 := by
  unfold swapL
  rw [getD_set_ne _ _ _ _ (fun h => hij h.symm)]
  exact getD_set_self _ i _ hi

theorem swapL_getD_other (l : List Int) (i j k : Nat) (hki : k ≠ i) (hkj : k ≠ j) :
    (swapL l i j).getD k 0 = l.getD k 0 := by
  unfold swapL
  rw [getD_set_ne _ _ _ _ (fun h => hkj h.symm), getD_set_ne _ _ _ _ (fun h => hki h.symm)]

theorem getD_cons_set_perm : ∀ (t : List Int) (j : Nat) (v : Int), j < t.length →
    (t.getD j 0 :: t.set j v).Perm (v :: t) := by
  intro t
  induction t with
  | nil => intro j v h; simp at h
  | cons b t ih =>
    intro j v h
    cases j with
    | zero =>
      rw [List.getD_cons_zero]
      exact List.Perm.swap v b t
    | succ j =>
      have hj : j < t.length := by simpa using h
      rw [List.getD_cons_succ]
      show (t.getD j 0 :: b :: t.set j v).Perm (v :: b :: t)
      have h1 : (t.getD j 0 :: b :: t.set j v).Perm (b :: t.getD j 0 :: t.set j v) :=
        List.Perm.swap b (t.getD j 0) _
      have h2 : (b :: t.getD j 0 :: t.set j v).Perm (b :: v :: t) :=
        List.Perm.cons b (ih j v hj)
      exact h1.trans (h2.trans (List.Perm.swap v b t))

theorem swapL_perm : ∀ (l : List Int) (i j : Nat), i < l.length → j < l.length →
    (swapL l i j).Perm l := by
  intro l
  induction l with
  | nil => intro i j hi; simp at hi
  | cons b t ih =>
    intro i j hi hj
    cases i with
    | zero =>
      cases j with
      | zero => simp [swapL, List.set, List.getD]
      | succ j =>
        have hj' : j < t.length := by simpa using hj
        show ((b :: t).set 0 ((b::t).getD (j+1) 0) |>.set (j+1) ((b::t).getD 0 0)).Perm (b :: t)
        simp only [List.getD, List.getElem?_cons_succ, List.getElem?_cons_zero,
          Option.getD_some, List.set]
        exact getD_cons_set_perm t j b hj'
    | succ i =>
      cases j with
      | zero =>
        have hi' : i < t.length := by simpa using hi
        show ((b :: t).set (i+1) ((b::t).getD 0 0) |>.set 0 ((b::t).getD (i+1) 0)).Perm (b :: t)
        simp only [List.getD, List.getElem?_cons_succ, List.getElem?_cons_zero,
          Option.getD_some, List.set]
        exact getD_cons_set_perm t i b hi'
      | succ j =>
        have hi' : i < t.length := by simpa using hi
        have hj' : j < t.length := by simpa using hj
        show ((b :: t).set (i+1) ((b::t).getD (j+1) 0) |>.set (j+1) ((b::t).getD (i+1) 0)).Perm (b :: t)
        simp only [List.getD, List.getElem?_cons_succ, List.set]
        exact List.Perm.cons b (ih i j hi' hj')

theorem le_of_adj (f : Nat → Int) (m : Nat) (hadj : ∀ k, k < m → f k ≤ f (k+1)) :
    ∀ k l, k ≤ l → l ≤ m → f k ≤ f l := by
  intro k l
  induction l with
  | zero =>
    intro hkl _
    have : k = 0 := by omega
    rw [this]
  | succ l ih =>
    intro hkl hlm
    rcases Nat.eq_or_lt_of_le hkl with h | h
    · rw [h]
    · exact le_trans (ih (by omega) (by omega)) (hadj l (by omega))

theorem getD_eq_get : ∀ (l : List Int) (i : Nat) (h : i < l.length),
    l.getD i 0 = l.get ⟨i, h⟩ := by
  intro l
  induction l with
  | nil => intro i h; simp at h
  | cons b t ih =>
    intro i h
    cases i with
    | zero => simp [List.getD_cons_zero]
    | succ i => simpa [List.getD_cons_succ] using ih i (by simpa using h)

theorem sortedD_iff_sorted (a : List Int) : SortedD a ↔ List.Sorted (· ≤ ·) a := by
  constructor
  · intro h
    have hc : a.Chain' (· ≤ ·) := by
      rw [List.chain'_iff_get]
      intro i hi
      rw [← getD_eq_get a i (by omega), ← getD_eq_get a (i+1) (by omega)]
      exact h i (i+1) (by omega) (by omega)
    exact List.chain'_iff_pairwise.mp hc
  · intro h
    intro k l hkl hl
    have hc : a.Chain' (· ≤ ·) := List.chain'_iff_pairwise.mpr h
    rw [List.chain'_iff_get] at hc
    have hadj : ∀ m, m < a.length - 1 →
        (fun i => a.getD i 0) m ≤ (fun i => a.getD i 0) (m+1) := by
      intro m hm
      simp only
      rw [getD_eq_get a m (by omega), getD_eq_get a (m+1) (by omega)]
      exact hc m hm
    have := le_of_adj (fun i => a.getD i 0) (a.length - 1) hadj k l (by omega) (by omega)
    simpa using this

theorem isAlreadySorted_iff (arr : List Int) :
    SortingAlgorithms.isAlreadySorted arr = true ↔ SortedD arr := by
  unfold SortingAlgorithms.isAlreadySorted
  rw [List.all_eq_true]
  constructor
  · intro h
    intro k l hkl hl
    have hadj : ∀ m, m < arr.length - 1 →
        (fun i => arr.getD i 0) m ≤ (fun i => arr.getD i 0) (m+1) := by
      intro m hm
      have := h (m+1) (List.mem_range.mpr (by omega))
      simp only [Bool.or_eq_true, beq_iff_eq, decide_eq_true_eq] at this
      rcases this with h0 | hle
      · omega
      · simpa using hle
    exact le_of_adj (fun i => arr.getD i 0) (arr.length - 1) hadj k l (by omega) (by omega)
  · intro h i hi
    rw [List.mem_range] at hi
    simp only [Bool.or_eq_true, beq_iff_eq, decide_eq_true_eq]
    rcases Nat.eq_zero_or_pos i with h0 | hpos
    · exact Or.inl h0
    · exact Or.inr (h (i-1) i (by omega) hi)

/-! ### Trace invariant lemmas -/

theorem TraceInv.init (n : Nat) (arr : List Int) :
    TraceInv n arr arr 0 [⟨arr, none, 0⟩] := by
  refine ⟨rfl, rfl, ?_, ?_, ?_⟩
  · intro s hs
    simp [List.getLast?] at hs
    subst hs
    exact Nat.le_refl 0
  · simp
  · intro s hs
    simp [List.tail] at hs

theorem TraceInv.bump {n : Nat} {arr0 a : List Int} {cmp cmp' : Nat} {steps : List Step}
    (h : TraceInv n arr0 a cmp steps) (hc : cmp ≤ cmp') : TraceInv n arr0 a cmp' steps :=
  ⟨h.head_eq, h.last_array, fun s hs => le_trans (h.last_cmp_le s hs) hc,
    h.chain, h.tail_touched⟩

theorem head?_append_left {α : Type} (l1 l2 : List α) (x : α)
    (h : l1.head? = some x) : (l1 ++ l2).head? = some x := by
  cases l1 with
  | nil => simp at h
  | cons b t => simpa using h

theorem TraceInv.push {n : Nat} {arr0 a : List Int} {cmp : Nat} {steps : List Step}
    (h : TraceInv n arr0 a cmp steps) {i j : Nat} {a' : List Int} {cmp' : Nat}
    (hc : cmp ≤ cmp') (hi : i < n) (hj : j < n) (hij : i ≠ j) :
    TraceInv n arr0 a' cmp' (steps ++ [⟨a', some (i, j), cmp'⟩]) := by
  have hne : steps ≠ [] := by
    intro hnil
    rw [hnil] at h
    exact Option.noConfusion h.head_eq
  refine ⟨head?_append_left _ _ _ h.head_eq, ?_, ?_, ?_, ?_⟩
  · rw [List.getLast?_concat]
    rfl
  · intro s hs
    rw [List.getLast?_concat] at hs
    simp only [Option.mem_def, Option.some.injEq] at hs
    rw [← hs]
  · rw [List.chain'_append]
    refine ⟨h.chain, List.chain'_singleton _, ?_⟩
    intro x hx y hy
    simp only [List.head?_cons, Option.mem_def, Option.some.injEq] at hy
    rw [← hy]
    exact le_trans (h.last_cmp_le x hx) hc
  · intro s hs
    cases steps with
    | nil => exact absurd rfl hne
    | cons s0 t =>
      simp only [List.cons_append, List.tail_cons] at hs
      rw [List.mem_append] at hs
      rcases hs with hs | hs
      · exact h.tail_touched s (by simpa using hs)
      · simp only [List.mem_singleton] at hs
        exact ⟨(i, j), by rw [hs], hi, hj, hij⟩

/-! ### Bubble sort -/

theorem bubbleInner_spec : ∀ (rem : Nat) (a : List Int) (steps : List Step) (cmp : Nat)
    (swapped : Bool) (j n : Nat) (arr0 : List Int),
    n = a.length → j + rem < n → TraceInv n arr0 a cmp steps →
    ∀ ares sres cres wres,
      SortingAlgorithms.bubbleInner a steps cmp swapped j rem = (ares, sres, cres, wres) →
      ares.length = a.length ∧ ares.Perm a ∧ cmp ≤ cres ∧
      TraceInv n arr0 ares cres sres ∧
      (∀ k, k < j ∨ j + rem < k → ares.getD k 0 = a.getD k 0) ∧
      ((∀ k, k < j → a.getD k 0 ≤ a.getD j 0) →
        ∀ k, k < j + rem → ares.getD k 0 ≤ ares.getD (j + rem) 0) ∧
      (∀ B : Int, (∀ k, k ≤ j + rem → a.getD k 0 ≤ B) →
        ∀ k, k ≤ j + rem → ares.getD k 0 ≤ B) ∧
      (swapped = true → wres = true) ∧
      (wres = false → ares = a ∧ ∀ k, j ≤ k → k < j + rem → a.getD k 0 ≤ a.getD (k+1) 0) := by
  intro rem
  induction rem with
  | zero =>
    intro a steps cmp swapped j n arr0 hn hlt hti ares sres cres wres heq
    simp only [SortingAlgorithms.bubbleInner, Prod.mk.injEq] at heq
    obtain ⟨rfl, rfl, rfl, rfl⟩ := heq
    refine ⟨rfl, List.Perm.refl a, Nat.le_refl cmp, hti, fun k _ => rfl, ?_, ?_, ?_, ?_⟩
    · intro hmax k hk
      simpa using hmax k (by omega)
    · intro B hB k hk
      exact hB k hk
    · intro h; exact h
    · intro _
      exact ⟨rfl, fun k h1 h2 => by omega⟩
  | succ rem ih =>
    intro a steps cmp swapped j n arr0 hn hlt hti ares sres cres wres heq
    simp only [SortingAlgorithms.bubbleInner] at heq
    split at heq
    next hgt =>
      have hja : j < a.length := by omega
      have hj1a : j + 1 < a.length := by omega
      have hti1 : TraceInv n arr0 (swapL a j (j+1)) (cmp+1)
          (steps ++ [⟨swapL a j (j+1), some (j, j+1), cmp+1⟩]) :=
        hti.push (Nat.le_succ cmp) (by omega) (by omega) (by omega)
      obtain ⟨L, P, C, T, F, M, Bb, W, _NS⟩ :=
        ih (swapL a j (j+1)) _ (cmp+1) true (j+1) n arr0
          (by rw [hn, swapL_length]) (by omega) hti1 ares sres cres wres heq
      have hlen1 : (swapL a j (j+1)).length = a.length := swapL_length a j (j+1)
      have hright : (swapL a j (j+1)).getD (j+1) 0 = a.getD j 0 :=
        swapL_getD_right a j (j+1) hj1a
      have hleft : (swapL a j (j+1)).getD j 0 = a.getD (j+1) 0 :=
        swapL_getD_left a j (j+1) hja (by omega)
      refine ⟨L.trans hlen1, P.trans (swapL_perm a j (j+1) hja hj1a),
        le_trans (Nat.le_succ cmp) C, T, ?_, ?_, ?_, ?_, ?_⟩
      · intro k hk
        have h1 : ares.getD k 0 = (swapL a j (j+1)).getD k 0 := by
          refine F k ?_
          rcases hk with hk | hk
          · exact Or.inl (by omega)
          · exact Or.inr (by omega)
        rw [h1]
        rcases hk with hk | hk
        · exact swapL_getD_other a j (j+1) k (by omega) (by omega)
        · exact swapL_getD_other a j (j+1) k (by omega) (by omega)
      · intro hmax k hk
        have hpre : ∀ k, k < j + 1 → (swapL a j (j+1)).getD k 0 ≤ (swapL a j (j+1)).getD (j+1) 0 := by
          intro k' hk'
          rw [hright]
          rcases Nat.lt_or_ge k' j with h | h
          · rw [swapL_getD_other a j (j+1) k' (by omega) (by omega)]
            exact hmax k' h
          · have : k' = j := by omega
            rw [this, hleft]
            exact le_of_lt hgt
        have heq2 : j + 1 + rem = j + (rem + 1) := by omega
        rw [← heq2]
        exact M hpre k (by omega)
      · intro B hB k hk
        have hpre : ∀ k, k ≤ j + 1 + rem → (swapL a j (j+1)).getD k 0 ≤ B := by
          intro k' hk'
          rcases Nat.lt_or_ge k' j with h | h
          · rw [swapL_getD_other a j (j+1) k' (by omega) (by omega)]
            exact hB k' (by omega)
          · rcases Nat.eq_or_lt_of_le h with h' | h'
            · rw [← h', hleft]
              exact hB (j+1) (by omega)
            · rcases Nat.eq_or_lt_of_le h' with h'' | h''
              · rw [← h'', hright]
                exact hB j (by omega)
              · rw [swapL_getD_other a j (j+1) k' (by omega) (by omega)]
                exact hB k' (by omega)
        exact Bb B hpre k (by omega)
      · intro _
        exact W rfl
      · intro hw
        rw [W rfl] at hw
        exact absurd hw (by simp)
    next hgt =>
      have hle : a.getD j 0 ≤ a.getD (j+1) 0 := le_of_not_lt hgt
      obtain ⟨L, P, C, T, F, M, Bb, W, NS⟩ :=
        ih a steps (cmp+1) swapped (j+1) n arr0 hn (by omega)
          (hti.bump (Nat.le_succ cmp)) ares sres cres wres heq
      refine ⟨L, P, le_trans (Nat.le_succ cmp) C, T, ?_, ?_, ?_, W, ?_⟩
      · intro k hk
        refine F k ?_
        rcases hk with hk | hk
        · exact Or.inl (by omega)
        · exact Or.inr (by omega)
      · intro hmax k hk
        have hpre : ∀ k, k < j + 1 → a.getD k 0 ≤ a.getD (j+1) 0 := by
          intro k' hk'
          rcases Nat.lt_or_ge k' j with h | h
          · exact le_trans (hmax k' h) hle
          · have : k' = j := by omega
            rw [this]
            exact hle
        have heq2 : j + 1 + rem = j + (rem + 1) := by omega
        rw [← heq2]
        exact M hpre k (by omega)
      · intro B hB k hk
        exact Bb B (fun k' hk' => hB k' (by omega)) k (by omega)
      · intro hw
        obtain ⟨ha, hadj⟩ := NS hw
        refine ⟨ha, ?_⟩
        intro k h1 h2
        rcases Nat.eq_or_lt_of_le h1 with h | h
        · rw [← h]
          exact hle
        · exact hadj k (by omega) (by omega)

theorem bubbleOuter_spec : ∀ (rem : Nat) (a : List Int) (steps : List Step) (cmp i n : Nat)
    (arr0 : List Int),
    n = a.length → i + rem = n - 1 →
    (∀ k l, n - i ≤ k → k ≤ l → l < n → a.getD k 0 ≤ a.getD l 0) →
    (∀ k l, k < n - i → n - i ≤ l → l < n → a.getD k 0 ≤ a.getD l 0) →
    TraceInv n arr0 a cmp steps →
    ∀ ares sres cres,
      SortingAlgorithms.bubbleOuter a steps cmp i rem = (ares, sres, cres) →
      ares.length = a.length ∧ ares.Perm a ∧ cmp ≤ cres ∧
      TraceInv n arr0 ares cres sres ∧ SortedD ares := by
  intro rem
  induction rem with
  | zero =>
    intro a steps cmp i n arr0 hn hi hS hD hti ares sres cres heq
    simp only [SortingAlgorithms.bubbleOuter, Prod.mk.injEq] at heq
    obtain ⟨rfl, rfl, rfl⟩ := heq
    refine ⟨rfl, List.Perm.refl a, Nat.le_refl cmp, hti, ?_⟩
    intro k l hkl hl
    rw [← hn] at hl
    rcases Nat.lt_or_ge k (n - i) with hk | hk
    · rcases Nat.lt_or_ge l (n - i) with hl2 | hl2
      · omega
      · exact hD k l hk hl2 hl
    · exact hS k l hk (by omega) hl
  | succ rem ih =>
    intro a steps cmp i n arr0 hn hi hS hD hti ares sres cres heq
    have hn2 : n = i + rem + 2 := by omega
    simp only [SortingAlgorithms.bubbleOuter] at heq
    rcases hinner : SortingAlgorithms.bubbleInner a steps cmp false 0 (a.length - 1 - i)
      with ⟨a1, steps1, cmp1, swapped⟩
    rw [hinner] at heq
    dsimp only at heq
    have hidx : a.length - 1 - i = rem + 1 := by omega
    rw [hidx] at hinner
    obtain ⟨L1, P1, C1, T1, F1, M1, B1, _W1, NS1⟩ :=
      bubbleInner_spec (rem+1) a steps cmp false 0 n arr0 hn (by omega) hti
        a1 steps1 cmp1 swapped hinner
    simp only [Nat.zero_add] at F1 M1 B1
    have hs1 : n - i = rem + 2 := by omega
    have hs2 : n - (i + 1) = rem + 1 := by omega
    split at heq
    next hw =>
      -- another pass follows
      have hSuf1 : ∀ k l, n - (i+1) ≤ k → k ≤ l → l < n → a1.getD k 0 ≤ a1.getD l 0 := by
        intro k l hk hkl hl
        rcases Nat.eq_or_lt_of_le hk with hk' | hk'
        · rcases Nat.eq_or_lt_of_le hkl with hl' | hl'
          · rw [hl']
          · have hfl : a1.getD l 0 = a.getD l 0 := F1 l (Or.inr (by omega))
            rw [hfl]
            have hpre : ∀ m, m ≤ rem + 1 → a.getD m 0 ≤ a.getD l 0 := by
              intro m hm
              exact hD m l (by omega) (by omega) hl
            have := B1 (a.getD l 0) hpre k (by omega)
            exact this
        · have hfk : a1.getD k 0 = a.getD k 0 := F1 k (Or.inr (by omega))
          have hfl : a1.getD l 0 = a.getD l 0 := F1 l (Or.inr (by omega))
          rw [hfk, hfl]
          exact hS k l (by omega) hkl hl
      have hDom1 : ∀ k l, k < n - (i+1) → n - (i+1) ≤ l → l < n → a1.getD k 0 ≤ a1.getD l 0 := by
        intro k l hk hl hln
        rcases Nat.eq_or_lt_of_le hl with hl' | hl'
        · rw [← hl', hs2]
          have := M1 (fun m hm => absurd hm (by omega)) k (by omega)
          simpa using this
        · have hfl : a1.getD l 0 = a.getD l 0 := F1 l (Or.inr (by omega))
          rw [hfl]
          have hpre : ∀ m, m ≤ rem + 1 → a.getD m 0 ≤ a.getD l 0 := by
            intro m hm
            exact hD m l (by omega) (by omega) hln
          exact B1 (a.getD l 0) hpre k (by omega)
      obtain ⟨L2, P2, C2, T2, S2⟩ :=
        ih a1 steps1 cmp1 (i+1) n arr0 (by rw [L1]; exact hn) (by omega)
          hSuf1 hDom1 T1 ares sres cres heq
      exact ⟨L2.trans L1, P2.trans P1, le_trans C1 C2, T2, S2⟩
    next hw =>
      have hwf : swapped = false := by
        cases swapped
        · rfl
        · exact absurd rfl hw
      obtain ⟨ha1, hadj⟩ := NS1 hwf
      simp only [Prod.mk.injEq] at heq
      obtain ⟨rfl, rfl, rfl⟩ := heq
      refine ⟨L1, P1, C1, T1, ?_⟩
      rw [ha1]
      intro k l hkl hl
      rw [← hn] at hl
      have hadj' : ∀ m, m < rem + 1 →
          (fun x => a.getD x 0) m ≤ (fun x => a.getD x 0) (m+1) := by
        intro m hm
        exact hadj m (by omega) (by omega)
      rcases Nat.lt_or_ge l (rem + 2) with hl2 | hl2
      · have := le_of_adj (fun x => a.getD x 0) (rem + 1) hadj' k l (by omega) (by omega)
        simpa using this
      · rcases Nat.lt_or_ge k (n - i) with hk | hk
        · exact hD k l (by omega) (by omega) hl
        · exact hS k l hk (by omega) hl

theorem bubbleSort_ok (arr : List Int) : ExecutorOK arr (SortingAlgorithms.bubbleSort arr) := by
  unfold SortingAlgorithms.bubbleSort
  dsimp only
  rcases houter : SortingAlgorithms.bubbleOuter arr [⟨arr, none, 0⟩] 0 0 (arr.length - 1)
    with ⟨a, st, cmp⟩
  obtain ⟨L, P, _C, T, S⟩ :=
    bubbleOuter_spec (arr.length - 1) arr [⟨arr, none, 0⟩] 0 0 arr.length arr rfl
      (by omega)
      (fun k l hk _hkl hl => absurd hl (by omega))
      (fun k l _hk hl hln => absurd hln (by omega))
      (TraceInv.init arr.length arr) a st cmp houter
  exact ⟨P, (sortedD_iff_sorted a).mp S, T⟩

/-! ### Selection sort -/

theorem selScan_spec : ∀ (rem : Nat) (a : List Int) (minIndex cmp j : Nat),
    ∀ m cres, SortingAlgorithms.selScan a minIndex cmp j rem = (m, cres) →
      cres = cmp + rem ∧ (m = minIndex ∨ (j ≤ m ∧ m < j + rem)) ∧
      a.getD m 0 ≤ a.getD minIndex 0 ∧
      (∀ k, j ≤ k → k < j + rem → a.getD m 0 ≤ a.getD k 0) := by
  intro rem
  induction rem with
  | zero =>
    intro a minIndex cmp j m cres heq
    simp only [SortingAlgorithms.selScan, Prod.mk.injEq] at heq
    obtain ⟨rfl, rfl⟩ := heq
    exact ⟨by omega, Or.inl rfl, le_refl _, fun k h1 h2 => by omega⟩
  | succ rem ih =>
    intro a minIndex cmp j m cres heq
    simp only [SortingAlgorithms.selScan] at heq
    split at heq
    next hlt =>
      obtain ⟨C, M, H3, H4⟩ := ih a j (cmp+1) (j+1) m cres heq
      refine ⟨by omega, Or.inr (by omega), le_trans H3 (le_of_lt hlt), ?_⟩
      intro k h1 h2
      rcases Nat.eq_or_lt_of_le h1 with h | h
      · rw [← h]
        exact H3
      · exact H4 k (by omega) (by omega)
    next hge =>
      have hge' : a.getD minIndex 0 ≤ a.getD j 0 := le_of_not_lt hge
      obtain ⟨C, M, H3, H4⟩ := ih a minIndex (cmp+1) (j+1) m cres heq
      refine ⟨by omega, ?_, H3, ?_⟩
      · rcases M with h | h
        · exact Or.inl h
        · exact Or.inr (by omega)
      · intro k h1 h2
        rcases Nat.eq_or_lt_of_le h1 with h | h
        · rw [← h]
          exact le_trans H3 hge'
        · exact H4 k (by omega) (by omega)

theorem selOuter_spec : ∀ (rem : Nat) (a : List Int) (steps : List Step) (cmp i n : Nat)
    (arr0 : List Int),
    n = a.length → i + rem = n - 1 →
    (∀ k l, k ≤ l → l < i → a.getD k 0 ≤ a.getD l 0) →
    (∀ k l, k < i → i ≤ l → l < n → a.getD k 0 ≤ a.getD l 0) →
    TraceInv n arr0 a cmp steps →
    ∀ ares sres cres, SortingAlgorithms.selOuter a steps cmp i rem = (ares, sres, cres) →
      ares.length = a.length ∧ ares.Perm a ∧ cmp ≤ cres ∧
      TraceInv n arr0 ares cres sres ∧ SortedD ares := by
  intro rem
  induction rem with
  | zero =>
    intro a steps cmp i n arr0 hn hi hP hD hti ares sres cres heq
    simp only [SortingAlgorithms.selOuter, Prod.mk.injEq] at heq
    obtain ⟨rfl, rfl, rfl⟩ := heq
    refine ⟨rfl, List.Perm.refl a, Nat.le_refl cmp, hti, ?_⟩
    intro k l hkl hl
    rw [← hn] at hl
    rcases Nat.lt_or_ge l i with h | h
    · exact hP k l (le_of_lt hkl) h
    · have : l = i := by omega
      exact hD k l (by omega) (by omega) hl
  | succ rem ih =>
    intro a steps cmp i n arr0 hn hi hP hD hti ares sres cres heq
    have hn2 : n = i + rem + 2 := by omega
    simp only [SortingAlgorithms.selOuter] at heq
    rcases hscan : SortingAlgorithms.selScan a i cmp (i+1) (a.length - (i+1))
      with ⟨m, cmp1⟩
    rw [hscan] at heq
    dsimp only at heq
    have hidx : a.length - (i+1) = rem + 1 := by omega
    rw [hidx] at hscan
    obtain ⟨C1, M1, Hmi, Hmin⟩ := selScan_spec (rem+1) a i cmp (i+1) m cmp1 hscan
    have him : i < n := by omega
    have hmn : m < n := by rcases M1 with h | h <;> omega
    have hia : i < a.length := by omega
    have hma : m < a.length := by omega
    have hminAll : ∀ k, i ≤ k → k < n → a.getD m 0 ≤ a.getD k 0 := by
      intro k h1 h2
      rcases Nat.eq_or_lt_of_le h1 with h | h
      · rw [← h]
        exact Hmi
      · exact Hmin k (by omega) (by omega)
    split at heq
    next hne =>
      have hmgt : i < m := by
        rcases M1 with h | h
        · exact absurd h hne
        · omega
      have hlen1 : (swapL a i m).length = a.length := swapL_length a i m
      have hleft : (swapL a i m).getD i 0 = a.getD m 0 :=
        swapL_getD_left a i m hia (by omega)
      have hright : (swapL a i m).getD m 0 = a.getD i 0 :=
        swapL_getD_right a i m hma
      have hother : ∀ k, k ≠ i → k ≠ m → (swapL a i m).getD k 0 = a.getD k 0 :=
        fun k h1 h2 => swapL_getD_other a i m k h1 h2
      have hti1 : TraceInv n arr0 (swapL a i m) cmp1
          (steps ++ [⟨swapL a i m, some (i, m), cmp1⟩]) :=
        hti.push (by omega) him hmn (by omega)
      have hP1 : ∀ k l, k ≤ l → l < i + 1 → (swapL a i m).getD k 0 ≤ (swapL a i m).getD l 0 := by
        intro k l hkl hl
        rcases Nat.lt_or_ge l i with h | h
        · rw [hother k (by omega) (by omega), hother l (by omega) (by omega)]
          exact hP k l hkl h
        · have hli : l = i := by omega
          subst hli
          rw [hleft]
          rcases Nat.eq_or_lt_of_le hkl with h' | h'
          · rw [h', hleft]
          · rw [hother k (by omega) (by omega)]
            exact hD k m (by omega) (by omega) hmn
      have hD1 : ∀ k l, k < i + 1 → i + 1 ≤ l → l < n → (swapL a i m).getD k 0 ≤ (swapL a i m).getD l 0 := by
        intro k l hk hl hln
        rcases Nat.lt_or_ge k i with hki | hki
        · rw [hother k (by omega) (by omega)]
          by_cases hlm : l = m
          · subst hlm
            rw [hright]
            exact hD k i hki (le_refl i) him
          · rw [hother l (by omega) hlm]
            exact hD k l hki (by omega) hln
        · have hki' : k = i := by omega
          subst hki'
          rw [hleft]
          by_cases hlm : l = m
          · subst hlm
            rw [hright]
            exact Hmi
          · rw [hother l (by omega) hlm]
            exact hminAll l (by omega) hln
      obtain ⟨L2, P2, C2, T2, S2⟩ :=
        ih (swapL a i m) _ cmp1 (i+1) n arr0 (by rw [hlen1]; exact hn) (by omega)
          hP1 hD1 hti1 ares sres cres heq
      exact ⟨L2.trans hlen1, P2.trans (swapL_perm a i m hia hma), by omega, T2, S2⟩
    next hne =>
      have hmi : m = i := by
        by_cases h : m = i
        · exact h
        · exact absurd h hne
      subst hmi
      have hP1 : ∀ k l, k ≤ l → l < m + 1 → a.getD k 0 ≤ a.getD l 0 := by
        intro k l hkl hl
        rcases Nat.lt_or_ge l m with h | h
        · exact hP k l hkl h
        · have : l = m := by omega
          subst this
          rcases Nat.eq_or_lt_of_le hkl with h' | h'
          · rw [h']
          · exact hD k l (by omega) (le_refl _) (by omega)
      have hD1 : ∀ k l, k < m + 1 → m + 1 ≤ l → l < n → a.getD k 0 ≤ a.getD l 0 := by
        intro k l hk hl hln
        rcases Nat.lt_or_ge k m with h | h
        · exact hD k l h (by omega) hln
        · have : k = m := by omega
          subst this
          exact hminAll l (by omega) hln
      obtain ⟨L2, P2, C2, T2, S2⟩ :=
        ih a steps cmp1 (m+1) n arr0 hn (by omega) hP1 hD1
          (hti.bump (by omega)) ares sres cres heq
      exact ⟨L2, P2, by omega, T2, S2⟩

theorem selectionSort_ok (arr : List Int) :
    ExecutorOK arr (SortingAlgorithms.selectionSort arr) := by
  unfold SortingAlgorithms.selectionSort
  dsimp only
  rcases houter : SortingAlgorithms.selOuter arr [⟨arr, none, 0⟩] 0 0 (arr.length - 1)
    with ⟨a, st, cmp⟩
  obtain ⟨L, P, _C, T, S⟩ :=
    selOuter_spec (arr.length - 1) arr [⟨arr, none, 0⟩] 0 0 arr.length arr rfl
      (by omega)
      (fun k l _hkl hl => absurd hl (by omega))
      (fun k l hk _hl _hln => absurd hk (by omega))
      (TraceInv.init arr.length arr) a st cmp houter
  exact ⟨P, (sortedD_iff_sorted a).mp S, T⟩

/-! ### Insertion sort -/

theorem set_shift_swap (a : List Int) (jp : Nat) (key : Int) (h : jp + 1 < a.length) :
    (a.set (jp+1) (a.getD jp 0)).set jp key = swapL (a.set (jp+1) key) jp (jp+1) := by
  apply eq_of_getD
  · simp [swapL]
  · intro k
    by_cases hk1 : k = jp
    · rw [hk1]
      rw [getD_set_self _ jp key (by rw [List.length_set]; omega)]
      rw [swapL_getD_left _ jp (jp+1) (by rw [List.length_set]; omega) (by omega)]
      rw [getD_set_self _ (jp+1) key (by omega)]
    · by_cases hk2 : k = jp + 1
      · rw [hk2]
        rw [getD_set_ne _ _ _ _ (by omega)]
        rw [getD_set_self _ (jp+1) _ h]
        rw [swapL_getD_right _ jp (jp+1) (by rw [List.length_set]; omega)]
        rw [getD_set_ne _ _ _ _ (by omega)]
      · rw [getD_set_ne _ _ _ _ (fun hh => hk1 hh.symm)]
        rw [getD_set_ne _ _ _ _ (fun hh => hk2 hh.symm)]
        rw [swapL_getD_other _ jp (jp+1) k hk1 hk2]
        rw [getD_set_ne _ _ _ _ (fun hh => hk2 hh.symm)]

theorem insInner_spec : ∀ (jp : Nat) (a : List Int) (steps : List Step) (cmp : Nat)
    (key : Int) (n : Nat) (arr0 : List Int),
    n = a.length → jp < n → TraceInv n arr0 a cmp steps →
    ∀ ares sres cres r, SortingAlgorithms.insInner a steps cmp key jp = (ares, sres, cres, r) →
      ares.length = a.length ∧ r ≤ jp ∧ cmp ≤ cres ∧ TraceInv n arr0 ares cres sres ∧
      (∀ k, k ≤ r ∨ jp < k → ares.getD k 0 = a.getD k 0) ∧
      (∀ k, r < k → k ≤ jp → ares.getD k 0 = a.getD (k-1) 0) ∧
      (∀ k, r ≤ k → k < jp → key < a.getD k 0) ∧
      (r = 0 ∨ a.getD (r-1) 0 ≤ key) ∧
      (ares.set r key).Perm (a.set jp key) := by
  intro jp
  induction jp with
  | zero =>
    intro a steps cmp key n arr0 hn hjn hti ares sres cres r heq
    simp only [SortingAlgorithms.insInner, Prod.mk.injEq] at heq
    obtain ⟨rfl, rfl, rfl, rfl⟩ := heq
    refine ⟨rfl, Nat.le_refl 0, Nat.le_refl cmp, hti, fun k _ => rfl, ?_, ?_, Or.inl rfl,
      List.Perm.refl _⟩
    · intro k h1 h2; omega
    · intro k h1 h2; omega
  | succ jp ih =>
    intro a steps cmp key n arr0 hn hjn hti ares sres cres r heq
    simp only [SortingAlgorithms.insInner] at heq
    have hj1a : jp + 1 < a.length := by omega
    split at heq
    next hgt =>
      have hti1 : TraceInv n arr0 (a.set (jp+1) (a.getD jp 0)) (cmp+1)
          (steps ++ [⟨a.set (jp+1) (a.getD jp 0), some (jp, jp+1), cmp+1⟩]) :=
        hti.push (Nat.le_succ cmp) (by omega) (by omega) (by omega)
      obtain ⟨L, R, C, T, F, Sh, Ex, Stp, Pm⟩ :=
        ih (a.set (jp+1) (a.getD jp 0)) _ (cmp+1) key n arr0
          (by rw [List.length_set]; exact hn) (by omega) hti1 ares sres cres r heq
      have hlen1 : (a.set (jp+1) (a.getD jp 0)).length = a.length := List.length_set a _ _
      refine ⟨L.trans hlen1, by omega, le_trans (Nat.le_succ cmp) C, T, ?_, ?_, ?_, ?_, ?_⟩
      · intro k hk
        rcases hk with hk | hk
        · rw [F k (Or.inl hk)]
          exact getD_set_ne _ _ _ _ (by omega)
        · rw [F k (Or.inr (by omega))]
          exact getD_set_ne _ _ _ _ (by omega)
      · intro k h1 h2
        rcases Nat.lt_or_ge k (jp+1) with hk | hk
        · rw [Sh k h1 (by omega)]
          exact getD_set_ne _ _ _ _ (by omega)
        · have hk' : k = jp + 1 := by omega
          subst hk'
          rw [F (jp+1) (Or.inr (by omega))]
          rw [getD_set_self _ (jp+1) _ hj1a]
          have : jp + 1 - 1 = jp := by omega
          rw [this]
      · intro k h1 h2
        rcases Nat.lt_or_ge k jp with hk | hk
        · have := Ex k h1 hk
          rwa [getD_set_ne _ _ _ _ (by omega)] at this
        · have hk' : k = jp := by omega
          subst hk'
          exact hgt
      · rcases Stp with h | h
        · exact Or.inl h
        · right
          rwa [getD_set_ne _ _ _ _ (by omega)] at h
      · have hkey : ((a.set (jp+1) (a.getD jp 0)).set jp key).Perm (a.set (jp+1) key) := by
          rw [set_shift_swap a jp key hj1a]
          exact swapL_perm _ jp (jp+1) (by rw [List.length_set]; omega)
            (by rw [List.length_set]; omega)
        exact Pm.trans hkey
    next hgt =>
      simp only [Prod.mk.injEq] at heq
      obtain ⟨rfl, rfl, rfl, rfl⟩ := heq
      refine ⟨rfl, Nat.le_refl _, Nat.le_succ cmp, hti.bump (Nat.le_succ cmp),
        fun k _ => rfl, ?_, ?_, ?_, List.Perm.refl _⟩
      · intro k h1 h2; omega
      · intro k h1 h2; omega
      · right
        have : jp + 1 - 1 = jp := by omega
        rw [this]
        exact le_of_not_lt hgt

theorem insOuter_spec : ∀ (rem : Nat) (a : List Int) (steps : List Step) (cmp i n : Nat)
    (arr0 : List Int),
    n = a.length → 1 ≤ i → i + rem = n →
    (∀ k l, k ≤ l → l < i → a.getD k 0 ≤ a.getD l 0) →
    TraceInv n arr0 a cmp steps →
    ∀ ares sres cres, SortingAlgorithms.insOuter a steps cmp i rem = (ares, sres, cres) →
      ares.length = a.length ∧ ares.Perm a ∧ cmp ≤ cres ∧
      TraceInv n arr0 ares cres sres ∧ SortedD ares := by
  intro rem
  induction rem with
  | zero =>
    intro a steps cmp i n arr0 hn h1 hi hP hti ares sres cres heq
    simp only [SortingAlgorithms.insOuter, Prod.mk.injEq] at heq
    obtain ⟨rfl, rfl, rfl⟩ := heq
    refine ⟨rfl, List.Perm.refl a, Nat.le_refl cmp, hti, ?_⟩
    intro k l hkl hl
    exact hP k l (le_of_lt hkl) (by omega)
  | succ rem ih =>
    intro a steps cmp i n arr0 hn h1 hi hP hti ares sres cres heq
    have hin : i < n := by omega
    have hia : i < a.length := by omega
    simp only [SortingAlgorithms.insOuter] at heq
    rcases hinner : SortingAlgorithms.insInner a steps cmp (a.getD i 0) i
      with ⟨a1, steps1, cmp1, r⟩
    rw [hinner] at heq
    dsimp only at heq
    obtain ⟨L1, Hr, C1, T1, F1, Sh1, Ex1, Stp1, Pm1⟩ :=
      insInner_spec i a steps cmp (a.getD i 0) n arr0 hn hin hti a1 steps1 cmp1 r hinner
    have hr1 : r < a1.length := by omega
    have hA2r : (a1.set r (a.getD i 0)).getD r 0 = a.getD i 0 :=
      getD_set_self a1 r _ hr1
    have hA2lt : ∀ k, k < r → (a1.set r (a.getD i 0)).getD k 0 = a.getD k 0 := by
      intro k hk
      rw [getD_set_ne _ _ _ _ (by omega)]
      exact F1 k (Or.inl (by omega))
    have hA2mid : ∀ k, r < k → k ≤ i → (a1.set r (a.getD i 0)).getD k 0 = a.getD (k-1) 0 := by
      intro k hk1 hk2
      rw [getD_set_ne _ _ _ _ (by omega)]
      exact Sh1 k hk1 hk2
    have hA2gt : ∀ k, i < k → (a1.set r (a.getD i 0)).getD k 0 = a.getD k 0 := by
      intro k hk
      rw [getD_set_ne _ _ _ _ (by omega)]
      exact F1 k (Or.inr hk)
    have hPm : (a1.set r (a.getD i 0)).Perm a := by
      have hid : (a.set i (a.getD i 0)).Perm a := by
        rw [set_getD_self a i]
      exact Pm1.trans hid
    have hL2 : (a1.set r (a.getD i 0)).length = a.length := by
      rw [List.length_set]
      exact L1
    have hbelow : ∀ k, k < r → a.getD k 0 ≤ a.getD i 0 := by
      intro k hk
      rcases Stp1 with h | h
      · omega
      · exact le_trans (hP k (r-1) (by omega) (by omega)) h
    have hP2 : ∀ k l, k ≤ l → l < i + 1 →
        (a1.set r (a.getD i 0)).getD k 0 ≤ (a1.set r (a.getD i 0)).getD l 0 := by
      intro k l hkl hl
      rcases Nat.lt_or_ge l r with hlr | hlr
      · rw [hA2lt k (by omega), hA2lt l hlr]
        exact hP k l hkl (by omega)
      · rcases Nat.eq_or_lt_of_le hlr with hlr' | hlr'
        · have hkr : k ≤ r := by omega
          rw [← hlr', hA2r]
          rcases Nat.eq_or_lt_of_le hkr with hk' | hk'
          · rw [hk', hA2r]
          · rw [hA2lt k hk']
            exact hbelow k hk'
        · rw [hA2mid l hlr' (by omega)]
          rcases Nat.lt_or_ge k r with hkr | hkr
          · rw [hA2lt k hkr]
            exact le_trans (hbelow k hkr) (le_of_lt (Ex1 (l-1) (by omega) (by omega)))
          · rcases Nat.eq_or_lt_of_le hkr with hkr' | hkr'
            · rw [← hkr', hA2r]
              exact le_of_lt (Ex1 (l-1) (by omega) (by omega))
            · rw [hA2mid k hkr' (by omega)]
              exact hP (k-1) (l-1) (by omega) (by omega)
    split at heq
    next hne =>
      have hT2 : TraceInv n arr0 (a1.set r (a.getD i 0)) cmp1
          (steps1 ++ [⟨a1.set r (a.getD i 0), some (r, i), cmp1⟩]) :=
        T1.push (Nat.le_refl cmp1) (by omega) hin hne
      obtain ⟨L3, P3, C3, T3, S3⟩ :=
        ih (a1.set r (a.getD i 0)) _ cmp1 (i+1) n arr0 (by rw [hL2]; exact hn)
          (by omega) (by omega) hP2 hT2 ares sres cres heq
      exact ⟨L3.trans hL2, P3.trans hPm, by omega, T3, S3⟩
    next hne =>
      have hri : r = i := by
        by_cases h : r = i
        · exact h
        · exact absurd h hne
      have ha1 : a1 = a := by
        apply eq_of_getD a1 a L1
        intro k
        rcases le_or_lt k r with h | h
        · exact F1 k (Or.inl h)
        · exact F1 k (Or.inr (by omega))
      have ha2 : a1.set r (a.getD i 0) = a := by
        rw [ha1, hri]
        exact set_getD_self a i
      rw [ha2] at hP2 hPm hL2 heq
      have hT2 : TraceInv n arr0 a cmp1 steps1 := by
        rw [ha1] at T1
        exact T1
      obtain ⟨L3, P3, C3, T3, S3⟩ :=
        ih a steps1 cmp1 (i+1) n arr0 hn (by omega) (by omega) hP2 hT2 ares sres cres heq
      exact ⟨L3, P3, by omega, T3, S3⟩

theorem insertionSort_ok (arr : List Int) :
    ExecutorOK arr (SortingAlgorithms.insertionSort arr) := by
  unfold SortingAlgorithms.insertionSort
  dsimp only
  rcases houter : SortingAlgorithms.insOuter arr [⟨arr, none, 0⟩] 0 1 (arr.length - 1)
    with ⟨a, st, cmp⟩
  by_cases h0 : arr.length = 0
  · have hnil : arr = [] := List.length_eq_zero.mp h0
    subst hnil
    simp only [List.length_nil, Nat.zero_sub, SortingAlgorithms.insOuter,
      Prod.mk.injEq] at houter
    obtain ⟨rfl, rfl, rfl⟩ := houter
    exact ⟨List.Perm.refl _, List.sorted_nil, TraceInv.init 0 []⟩
  · obtain ⟨L, P, _C, T, S⟩ :=
      insOuter_spec (arr.length - 1) arr [⟨arr, none, 0⟩] 0 1 arr.length arr rfl
        (Nat.le_refl 1) (by omega)
        (fun k l hkl hl => by
          have hk0 : k = 0 := by omega
          have hl0 : l = 0 := by omega
          rw [hk0, hl0])
        (TraceInv.init arr.length arr) a st cmp houter
    exact ⟨P, (sortedD_iff_sorted a).mp S, T⟩

/-! ### Quick sort -/

theorem qLoop_spec : ∀ (rem : Nat) (st : SortingAlgorithms.QState) (pivot : Int)
    (i1 j low high n : Nat)
    (arr0 : List Int),
    n = st.a.length → low ≤ i1 → i1 ≤ j → j + rem = high → high < n →
    st.a.getD high 0 = pivot →
    (∀ k, low ≤ k → k < i1 → st.a.getD k 0 < pivot) →
    (∀ k, i1 ≤ k → k < j → pivot ≤ st.a.getD k 0) →
    TraceInv n arr0 st.a st.cmp st.steps →
    ∀ stf i1f, SortingAlgorithms.qLoop st pivot i1 j rem = (stf, i1f) →
      stf.a.length = st.a.length ∧ stf.a.Perm st.a ∧ st.cmp ≤ stf.cmp ∧
      TraceInv n arr0 stf.a stf.cmp stf.steps ∧
      i1 ≤ i1f ∧ i1f ≤ high ∧
      (∀ k, k < i1 ∨ high ≤ k → stf.a.getD k 0 = st.a.getD k 0) ∧
      (∀ k, low ≤ k → k < i1f → stf.a.getD k 0 < pivot) ∧
      (∀ k, i1f ≤ k → k < high → pivot ≤ stf.a.getD k 0) ∧
      (∀ P : Int → Prop, (∀ k, low ≤ k → k < high → P (st.a.getD k 0)) →
        ∀ k, low ≤ k → k < high → P (stf.a.getD k 0)) := by
  intro rem
  induction rem with
  | zero =>
    intro st pivot i1 j low high n arr0 hn hli hij hj hhn hpiv hreg1 hreg2 hti stf i1f heq
    simp only [SortingAlgorithms.qLoop, Prod.mk.injEq] at heq
    obtain ⟨rfl, rfl⟩ := heq
    have hjh : j = high := by omega
    subst hjh
    exact ⟨rfl, List.Perm.refl _, Nat.le_refl _, hti, Nat.le_refl _, hij, fun k _ => rfl,
      hreg1, hreg2, fun P hP => hP⟩
  | succ rem ih =>
    intro st pivot i1 j low high n arr0 hn hli hij hj hhn hpiv hreg1 hreg2 hti stf i1f heq
    have hjh : j < high := by omega
    have hja : j < st.a.length := by omega
    simp only [SortingAlgorithms.qLoop] at heq
    split at heq
    next hlt =>
      split at heq
      next hne =>
        have hi1j : i1 < j := by omega
        have hi1a : i1 < st.a.length := by omega
        have hT1 : TraceInv n arr0 (swapL st.a i1 j) (st.cmp + 1)
            (st.steps ++ [⟨swapL st.a i1 j, some (i1, j), st.cmp + 1⟩]) :=
          hti.push (Nat.le_succ _) (by omega) (by omega) hne
        have hlen1 : (swapL st.a i1 j).length = st.a.length := swapL_length _ _ _
        have hreg1' : ∀ k, low ≤ k → k < i1 + 1 → (swapL st.a i1 j).getD k 0 < pivot := by
          intro k h1 h2
          rcases Nat.lt_or_ge k i1 with h | h
          · rw [swapL_getD_other _ _ _ k (by omega) (by omega)]
            exact hreg1 k h1 h
          · have : k = i1 := by omega
            rw [this, swapL_getD_left _ _ _ hi1a (by omega)]
            exact hlt
        have hreg2' : ∀ k, i1 + 1 ≤ k → k < j + 1 → pivot ≤ (swapL st.a i1 j).getD k 0 := by
          intro k h1 h2
          rcases Nat.lt_or_ge k j with h | h
          · rw [swapL_getD_other _ _ _ k (by omega) (by omega)]
            exact hreg2 k (by omega) h
          · have : k = j := by omega
            rw [this, swapL_getD_right _ _ _ hja]
            exact hreg2 i1 (Nat.le_refl _) hi1j
        obtain ⟨L, P, C, T, Ia, Ib, F, R1, R2, PP⟩ :=
          ih ⟨swapL st.a i1 j, _, st.cmp + 1⟩ pivot (i1+1) (j+1) low high n arr0
            (by rw [hn]; exact hlen1.symm) (by omega) (by omega) (by omega) hhn
            (by
              show (swapL st.a i1 j).getD high 0 = pivot
              rw [swapL_getD_other _ _ _ high (by omega) (by omega)]
              exact hpiv)
            hreg1' hreg2' hT1 stf i1f heq
        refine ⟨L.trans hlen1, P.trans (swapL_perm _ _ _ hi1a hja),
          le_trans (Nat.le_succ _) C, T, by omega, Ib, ?_, R1, R2, ?_⟩
        · intro k hk
          have h1 : stf.a.getD k 0 = (swapL st.a i1 j).getD k 0 := by
            refine F k ?_
            rcases hk with hk | hk
            · exact Or.inl (by omega)
            · exact Or.inr hk
          rw [h1]
          rcases hk with hk | hk
          · exact swapL_getD_other _ _ _ k (by omega) (by omega)
          · exact swapL_getD_other _ _ _ k (by omega) (by omega)
        · intro P0 hP0 k h1 h2
          refine PP P0 ?_ k h1 h2
          intro k' h1' h2'
          by_cases hk1 : k' = i1
          · rw [hk1, swapL_getD_left _ _ _ hi1a (by omega)]
            exact hP0 j (by omega) (by omega)
          · by_cases hk2 : k' = j
            · rw [hk2, swapL_getD_right _ _ _ hja]
              exact hP0 i1 (by omega) (by omega)
            · rw [swapL_getD_other _ _ _ k' hk1 hk2]
              exact hP0 k' h1' h2'
      next hne =>
        have hi1j : i1 = j := by
          by_cases h : i1 = j
          · exact h
          · exact absurd h hne
        have hreg1' : ∀ k, low ≤ k → k < i1 + 1 → st.a.getD k 0 < pivot := by
          intro k h1 h2
          rcases Nat.lt_or_ge k i1 with h | h
          · exact hreg1 k h1 h
          · have : k = i1 := by omega
            rw [this, hi1j]
            exact hlt
        have hreg2' : ∀ k, i1 + 1 ≤ k → k < j + 1 → pivot ≤ st.a.getD k 0 := by
          intro k h1 h2
          exact absurd h1 (by omega)
        obtain ⟨L, P, C, T, Ia, Ib, F, R1, R2, PP⟩ :=
          ih ⟨st.a, st.steps, st.cmp + 1⟩ pivot (i1+1) (j+1) low high n arr0
            hn (by omega) (by omega) (by omega) hhn hpiv hreg1' hreg2'
            (hti.bump (Nat.le_succ _)) stf i1f heq
        refine ⟨L, P, le_trans (Nat.le_succ _) C, T, by omega, Ib, ?_, R1, R2, PP⟩
        intro k hk
        refine F k ?_
        rcases hk with hk | hk
        · exact Or.inl (by omega)
        · exact Or.inr hk
    next hge =>
      have hreg2' : ∀ k, i1 ≤ k → k < j + 1 → pivot ≤ st.a.getD k 0 := by
        intro k h1 h2
        rcases Nat.lt_or_ge k j with h | h
        · exact hreg2 k h1 h
        · have : k = j := by omega
          rw [this]
          exact le_of_not_lt hge
      obtain ⟨L, P, C, T, Ia, Ib, F, R1, R2, PP⟩ :=
        ih ⟨st.a, st.steps, st.cmp + 1⟩ pivot i1 (j+1) low high n arr0
          hn hli (by omega) (by omega) hhn hpiv hreg1 hreg2'
          (hti.bump (Nat.le_succ _)) stf i1f heq
      exact ⟨L, P, le_trans (Nat.le_succ _) C, T, Ia, Ib, F, R1, R2, PP⟩

theorem qPartition_spec : ∀ (st : SortingAlgorithms.QState) (low high n : Nat)
    (arr0 : List Int),
    n = st.a.length → low ≤ high → high < n →
    TraceInv n arr0 st.a st.cmp st.steps →
    ∀ stf p, SortingAlgorithms.qPartition st low high = (stf, p) →
      stf.a.length = st.a.length ∧ stf.a.Perm st.a ∧ st.cmp ≤ stf.cmp ∧
      TraceInv n arr0 stf.a stf.cmp stf.steps ∧
      low ≤ p ∧ p ≤ high ∧
      (∀ k, k < low ∨ high < k → stf.a.getD k 0 = st.a.getD k 0) ∧
      (∀ k, low ≤ k → k < p → stf.a.getD k 0 < stf.a.getD p 0) ∧
      (∀ k, p < k → k ≤ high → stf.a.getD p 0 ≤ stf.a.getD k 0) ∧
      (∀ P : Int → Prop, (∀ k, low ≤ k → k ≤ high → P (st.a.getD k 0)) →
        ∀ k, low ≤ k → k ≤ high → P (stf.a.getD k 0)) := by
  intro st low high n arr0 hn hlh hhn hti stf p heq
  simp only [SortingAlgorithms.qPartition] at heq
  rcases hloop : SortingAlgorithms.qLoop st (st.a.getD high 0) low low (high - low)
    with ⟨st1, i1⟩
  rw [hloop] at heq
  dsimp only at heq
  obtain ⟨L1, P1, C1, T1, I1a, I1b, F1, R1, R2, PP1⟩ :=
    qLoop_spec (high - low) st (st.a.getD high 0) low low low high n arr0
      hn (Nat.le_refl _) (Nat.le_refl _) (by omega) hhn rfl
      (fun k h1 h2 => absurd h1 (by omega))
      (fun k h1 h2 => absurd h1 (by omega)) hti st1 i1 hloop
  have hpiv1 : st1.a.getD high 0 = st.a.getD high 0 := F1 high (Or.inr (Nat.le_refl _))
  have hextP : ∀ P : Int → Prop, (∀ k, low ≤ k → k ≤ high → P (st.a.getD k 0)) →
      ∀ k, low ≤ k → k ≤ high → P (st1.a.getD k 0) := by
    intro P hP k h1 h2
    rcases Nat.lt_or_ge k high with h | h
    · exact PP1 P (fun k' h1' h2' => hP k' h1' (by omega)) k h1 h
    · have : k = high := by omega
      rw [this, hpiv1]
      exact hP high hlh (Nat.le_refl _)
  split at heq
  next hne =>
    simp only [Prod.mk.injEq] at heq
    obtain ⟨rfl, rfl⟩ := heq
    have hi1h : i1 < high := by omega
    have hi1a : i1 < st1.a.length := by omega
    have hha : high < st1.a.length := by omega
    have hleft : (swapL st1.a i1 high).getD i1 0 = st1.a.getD high 0 :=
      swapL_getD_left _ _ _ hi1a (by omega)
    have hright : (swapL st1.a i1 high).getD high 0 = st1.a.getD i1 0 :=
      swapL_getD_right _ _ _ hha
    refine ⟨(swapL_length _ _ _).trans L1, (swapL_perm _ _ _ hi1a hha).trans P1, C1,
      T1.push (Nat.le_refl _) (by omega) (by omega) hne, I1a, le_of_lt hi1h, ?_, ?_, ?_, ?_⟩
    · intro k hk
      have h1 : (swapL st1.a i1 high).getD k 0 = st1.a.getD k 0 := by
        refine swapL_getD_other _ _ _ k (by omega) (by omega)
      rw [h1]
      refine F1 k ?_
      rcases hk with hk | hk
      · exact Or.inl (by omega)
      · exact Or.inr (by omega)
    · intro k h1 h2
      rw [hleft, hpiv1]
      rw [swapL_getD_other _ _ _ k (by omega) (by omega)]
      exact R1 k h1 h2
    · intro k h1 h2
      rw [hleft, hpiv1]
      rcases Nat.lt_or_ge k high with h | h
      · rw [swapL_getD_other _ _ _ k (by omega) (by omega)]
        exact R2 k (by omega) h
      · have : k = high := by omega
        rw [this, hright]
        exact R2 i1 (Nat.le_refl _) hi1h
    · intro P hP k h1 h2
      have hst1 := hextP P hP
      by_cases hk1 : k = i1
      · rw [hk1, hleft]
        exact hst1 high hlh (Nat.le_refl _)
      · by_cases hk2 : k = high
        · rw [hk2, hright]
          exact hst1 i1 I1a (by omega)
        · rw [swapL_getD_other _ _ _ k hk1 hk2]
          exact hst1 k h1 h2
  next hne =>
    simp only [Prod.mk.injEq] at heq
    obtain ⟨rfl, rfl⟩ := heq
    have hi1h : i1 = high := by
      by_cases h : i1 = high
      · exact h
      · exact absurd h hne
    refine ⟨L1, P1, C1, T1, I1a, I1b, ?_, ?_, ?_, hextP⟩
    · intro k hk
      refine F1 k ?_
      rcases hk with hk | hk
      · exact Or.inl (by omega)
      · exact Or.inr (by omega)
    · intro k h1 h2
      rw [hi1h] at h2 ⊢
      rw [hpiv1]
      exact R1 k h1 (by omega)
    · intro k h1 h2
      omega

theorem qSortHelper_stop (fuel : Nat) (st : SortingAlgorithms.QState) (low high : Nat)
    (h : ¬ low < high) : SortingAlgorithms.qSortHelper fuel st low high = st := by
  cases fuel with
  | zero => rfl
  | succ fuel => simp [SortingAlgorithms.qSortHelper, h]

theorem qSortHelper_spec : ∀ (fuel : Nat) (st : SortingAlgorithms.QState)
    (low high n : Nat) (arr0 : List Int),
    n = st.a.length → high < n → high + 1 - low ≤ fuel →
    TraceInv n arr0 st.a st.cmp st.steps →
    ∀ stf, SortingAlgorithms.qSortHelper fuel st low high = stf →
      stf.a.length = st.a.length ∧ stf.a.Perm st.a ∧ st.cmp ≤ stf.cmp ∧
      TraceInv n arr0 stf.a stf.cmp stf.steps ∧
      (∀ k, k < low ∨ high < k → stf.a.getD k 0 = st.a.getD k 0) ∧
      (∀ k l, low ≤ k → k ≤ l → l ≤ high → stf.a.getD k 0 ≤ stf.a.getD l 0) ∧
      (∀ P : Int → Prop, (∀ k, low ≤ k → k ≤ high → P (st.a.getD k 0)) →
        ∀ k, low ≤ k → k ≤ high → P (stf.a.getD k 0)) := by
  intro fuel
  induction fuel with
  | zero =>
    intro st low high n arr0 hn hhn hfuel hti stf heq
    simp only [SortingAlgorithms.qSortHelper] at heq
    subst heq
    refine ⟨rfl, List.Perm.refl _, Nat.le_refl _, hti, fun k _ => rfl, ?_, fun P hP => hP⟩
    intro k l h1 h2 h3
    exact absurd h1 (by omega)
  | succ fuel ih =>
    intro st low high n arr0 hn hhn hfuel hti stf heq
    simp only [SortingAlgorithms.qSortHelper] at heq
    split at heq
    next hlth =>
      rcases hpart : SortingAlgorithms.qPartition st low high with ⟨st1, p⟩
      rw [hpart] at heq
      dsimp only at heq
      obtain ⟨L1, P1, C1, T1, hlp, hph, F1, R1, R2, PP1⟩ :=
        qPartition_spec st low high n arr0 hn (le_of_lt hlth) hhn hti st1 p hpart
      obtain ⟨L2, P2, C2, T2, F2, S2, PP2⟩ :=
        ih st1 low (p-1) n arr0 (by rw [L1]; exact hn) (by omega) (by omega) T1
          (SortingAlgorithms.qSortHelper fuel st1 low (p-1)) rfl
      have hst2p : ∀ k, p ≤ k → k ≤ high →
          (SortingAlgorithms.qSortHelper fuel st1 low (p-1)).a.getD k 0 = st1.a.getD k 0 := by
        intro k hk1 hk2
        by_cases hp0 : p = 0
        · rw [qSortHelper_stop fuel st1 low (p-1) (by omega)]
        · exact F2 k (Or.inr (by omega))
      obtain ⟨L3, P3, C3, T3, F3, S3, PP3⟩ :=
        ih (SortingAlgorithms.qSortHelper fuel st1 low (p-1)) (p+1) high n arr0
          (by rw [L2, L1]; exact hn) hhn (by omega) T2 stf heq
      have hst3le : ∀ k, k ≤ p →
          stf.a.getD k 0 = (SortingAlgorithms.qSortHelper fuel st1 low (p-1)).a.getD k 0 :=
        fun k hk => F3 k (Or.inl (by omega))
      have hleftlt : ∀ k, low ≤ k → k < p →
          (SortingAlgorithms.qSortHelper fuel st1 low (p-1)).a.getD k 0 < st1.a.getD p 0 := by
        intro k hk1 hk2
        exact PP2 (fun x => x < st1.a.getD p 0)
          (fun k' h1' h2' => R1 k' h1' (by omega)) k hk1 (by omega)
      have hst2piv : (SortingAlgorithms.qSortHelper fuel st1 low (p-1)).a.getD p 0 =
          st1.a.getD p 0 := hst2p p (Nat.le_refl _) hph
      have hrightge : ∀ k, p < k → k ≤ high → st1.a.getD p 0 ≤ stf.a.getD k 0 := by
        intro k hk1 hk2
        refine PP3 (fun x => st1.a.getD p 0 ≤ x) ?_ k (by omega) hk2
        intro k' h1' h2'
        rw [hst2p k' (by omega) h2']
        exact R2 k' (by omega) h2'
      refine ⟨L3.trans (L2.trans L1), P3.trans (P2.trans P1),
        le_trans C1 (le_trans C2 C3), T3, ?_, ?_, ?_⟩
      · intro k hk
        have e3 : stf.a.getD k 0 = (SortingAlgorithms.qSortHelper fuel st1 low (p-1)).a.getD k 0 := by
          refine F3 k ?_
          rcases hk with hk | hk
          · exact Or.inl (by omega)
          · exact Or.inr (by omega)
        have e2 : (SortingAlgorithms.qSortHelper fuel st1 low (p-1)).a.getD k 0 =
            st1.a.getD k 0 := by
          refine F2 k ?_
          rcases hk with hk | hk
          · exact Or.inl (by omega)
          · exact Or.inr (by omega)
        have e1 : st1.a.getD k 0 = st.a.getD k 0 := F1 k hk
        rw [e3, e2, e1]
      · intro k l hk hkl hl
        rcases Nat.lt_or_ge l p with hlp2 | hlp2
        · rw [hst3le k (by omega), hst3le l (by omega)]
          exact S2 k l hk hkl (by omega)
        · rcases Nat.eq_or_lt_of_le hlp2 with hlp3 | hlp3
          · have hlpe : l = p := hlp3.symm
            subst hlpe
            rcases Nat.eq_or_lt_of_le hkl with hk2 | hk2
            · exact le_of_eq (by rw [hk2])
            · rw [hst3le k (le_of_lt hk2), hst3le l (Nat.le_refl _), hst2piv]
              exact le_of_lt (hleftlt k hk hk2)
          · have hplow : st1.a.getD p 0 ≤ stf.a.getD l 0 := hrightge l hlp3 hl
            rcases Nat.lt_or_ge k p with hkp | hkp
            · refine le_trans ?_ hplow
              rw [hst3le k (by omega)]
              exact le_of_lt (hleftlt k hk hkp)
            · rcases Nat.eq_or_lt_of_le hkp with hkp2 | hkp2
              · refine le_trans ?_ hplow
                rw [← hkp2]
                rw [hst3le p (Nat.le_refl _), hst2piv]
              · exact S3 k l (by omega) hkl hl
      · intro P hP k h1 h2
        have step1 : ∀ k, low ≤ k → k ≤ high → P (st1.a.getD k 0) := PP1 P hP
        have step2 : ∀ k, low ≤ k → k ≤ high →
            P ((SortingAlgorithms.qSortHelper fuel st1 low (p-1)).a.getD k 0) := by
          intro k' h1' h2'
          rcases Nat.lt_or_ge k' p with hk' | hk'
          · exact PP2 P (fun m hm1 hm2 => step1 m hm1 (by omega)) k' h1' (by omega)
          · rw [hst2p k' hk' h2']
            exact step1 k' h1' h2'
        rcases le_or_lt k p with hk' | hk'
        · rw [hst3le k hk']
          exact step2 k h1 h2
        · exact PP3 P (fun m hm1 hm2 => step2 m (by omega) hm2) k (by omega) h2
    next hlth =>
      subst heq
      refine ⟨rfl, List.Perm.refl _, Nat.le_refl _, hti, fun k _ => rfl, ?_, fun P hP => hP⟩
      intro k l h1 h2 h3
      have : k = l := by omega
      rw [this]

theorem quickSort_ok (arr : List Int) : ExecutorOK arr (SortingAlgorithms.quickSort arr) := by
  unfold SortingAlgorithms.quickSort
  dsimp only
  rcases hq : SortingAlgorithms.qSortHelper (arr.length + 1) ⟨arr, [⟨arr, none, 0⟩], 0⟩ 0
    (arr.length - 1) with ⟨a, st, cmp⟩
  by_cases h0 : arr.length = 0
  · have hnil : arr = [] := List.length_eq_zero.mp h0
    subst hnil
    rw [qSortHelper_stop _ _ _ _ (by simp)] at hq
    simp only [SortingAlgorithms.QState.mk.injEq] at hq
    obtain ⟨rfl, rfl, rfl⟩ := hq
    exact ⟨List.Perm.refl _, List.sorted_nil, TraceInv.init 0 []⟩
  · obtain ⟨L, P, _C, T, _F, S, _PP⟩ :=
      qSortHelper_spec (arr.length + 1) ⟨arr, [⟨arr, none, 0⟩], 0⟩ 0 (arr.length - 1)
        arr.length arr rfl (by omega) (by omega) (TraceInv.init arr.length arr)
        ⟨a, st, cmp⟩ hq
    refine ⟨P, (sortedD_iff_sorted a).mp ?_, T⟩
    intro k l hkl hl
    have hla : a.length = arr.length := L
    exact S k l (by omega) (le_of_lt hkl) (by omega)

/-! ### The insertion executor agrees with the specification's step semantics -/

theorem Step.bump_bump (c1 c2 : Nat) (s : Step) :
    Step.bump c1 (Step.bump c2 s) = Step.bump (c1 + c2) s := by
  simp [Step.bump]
  omega

theorem insInner_eq_specShift : ∀ (jp : Nat) (a : List Int) (steps : List Step) (cmp : Nat)
    (key : Int),
    SortingAlgorithms.insInner a steps cmp key jp =
      (match specShift a key jp with
       | (a', ss, ex, r) => (a', steps ++ ss.map (Step.bump cmp), cmp + ex, r)) := by
  intro jp
  induction jp with
  | zero =>
    intro a steps cmp key
    simp [SortingAlgorithms.insInner, specShift]
  | succ jp ih =>
    intro a steps cmp key
    simp only [SortingAlgorithms.insInner, specShift, gt_iff_lt]
    by_cases h : key < a.getD jp 0
    · rw [if_pos h, if_pos h]
      rw [ih]
      rcases hss : specShift (a.set (jp+1) (a.getD jp 0)) key jp with ⟨a', ss, ex, r⟩
      dsimp only
      simp only [Prod.mk.injEq]
      refine ⟨trivial, ?_, by omega, trivial⟩
      have hmap : (ss.map (Step.bump 1)).map (Step.bump cmp) = ss.map (Step.bump (cmp+1)) := by
        rw [List.map_map]
        refine List.map_congr_left ?_
        intro s _
        show Step.bump cmp (Step.bump 1 s) = Step.bump (cmp+1) s
        rw [Step.bump_bump]
      rw [List.map_cons, hmap]
      show (steps ++ [⟨_, _, cmp + 1⟩]) ++ ss.map (Step.bump (cmp+1)) =
        steps ++ (Step.bump cmp ⟨_, _, 1⟩ :: ss.map (Step.bump (cmp+1)))
      rw [List.append_assoc, List.singleton_append]
      rfl
    · rw [if_neg h, if_neg h]
      simp

theorem insOuter_eq_spec : ∀ (rem : Nat) (a : List Int) (steps : List Step) (cmp i : Nat),
    SortingAlgorithms.insOuter a steps cmp i rem = specInsOuter a steps cmp i rem := by
  intro rem
  induction rem with
  | zero =>
    intro a steps cmp i
    simp [SortingAlgorithms.insOuter, specInsOuter]
  | succ rem ih =>
    intro a steps cmp i
    simp only [SortingAlgorithms.insOuter, specInsOuter, specInsertPass]
    rw [insInner_eq_specShift]
    rcases hss : specShift a (a.getD i 0) i with ⟨a', ss, ex, r⟩
    dsimp only
    split
    next hri =>
      rw [ih]
    next hri =>
      rw [ih]

/-! ### Dispatcher -/

theorem sort_fastpath (maxSize : Nat) (arr : List Int) (alg : String)
    (h1 : arr.length ≠ 0) (h2 : arr.length ≤ maxSize)
    (h3 : SortingAlgorithms.isAlreadySorted arr = true) :
    SortingAlgorithms.sort maxSize (.arr arr) alg =
      .ok ⟨[⟨arr, none, 0⟩], arr, alg, 0⟩ := by
  simp only [SortingAlgorithms.sort]
  rw [if_neg h1, if_neg (by omega), if_pos h3]

theorem sort_dispatch_eq (maxSize : Nat) (arr : List Int) (alg : String)
    (h1 : arr.length ≠ 0) (h2 : arr.length ≤ maxSize)
    (h3 : SortingAlgorithms.isAlreadySorted arr = false) :
    SortingAlgorithms.sort maxSize (.arr arr) alg =
      (match SortingAlgorithms.toLowerCase alg with
       | "bubble" => .ok (SortingAlgorithms.bubbleSort arr)
       | "quick" => .ok (SortingAlgorithms.quickSort arr)
       | "selection" => .ok (SortingAlgorithms.selectionSort arr)
       | "insertion" => .ok (SortingAlgorithms.insertionSort arr)
       | _ => .error .UnsupportedAlgorithmKind) := by
  simp only [SortingAlgorithms.sort]
  rw [if_neg h1, if_neg (by omega), if_neg (by simp [h3])]

theorem sort_ok_of_valid (maxSize : Nat) (arr : List Int) (alg : String)
    (h1 : arr ≠ []) (h2 : arr.length ≤ maxSize)
    (h3 : alg ∈ SortingAlgorithms.supportedIdentifiers) :
    ∃ r : SortResult,
      SortingAlgorithms.sort maxSize (.arr arr) alg = .ok r ∧ ExecutorOK arr r := by
  have h1' : arr.length ≠ 0 := by
    intro h
    exact h1 (List.length_eq_zero.mp h)
  by_cases hsorted : SortingAlgorithms.isAlreadySorted arr = true
  · refine ⟨⟨[⟨arr, none, 0⟩], arr, alg, 0⟩,
      sort_fastpath maxSize arr alg h1' h2 hsorted, List.Perm.refl arr,
      (sortedD_iff_sorted arr).mp ((isAlreadySorted_iff arr).mp hsorted),
      TraceInv.init arr.length arr⟩
  · have hsf : SortingAlgorithms.isAlreadySorted arr = false := by
      cases h : SortingAlgorithms.isAlreadySorted arr
      · rfl
      · exact absurd h hsorted
    simp only [SortingAlgorithms.supportedIdentifiers, List.mem_cons,
      List.not_mem_nil, or_false] at h3
    rcases h3 with rfl | rfl | rfl | rfl
    · exact ⟨_, by rw [sort_dispatch_eq maxSize arr _ h1' h2 hsf]; rfl, bubbleSort_ok arr⟩
    · exact ⟨_, by rw [sort_dispatch_eq maxSize arr _ h1' h2 hsf]; rfl, quickSort_ok arr⟩
    · exact ⟨_, by rw [sort_dispatch_eq maxSize arr _ h1' h2 hsf]; rfl, selectionSort_ok arr⟩
    · exact ⟨_, by rw [sort_dispatch_eq maxSize arr _ h1' h2 hsf]; rfl, insertionSort_ok arr⟩

/-! ### The claims -/

/-- Claim C1: for every valid input sequence (non-empty, within the configured
maximum) and each of the four algorithms (bubble, quick, selection, insertion),
`sort` succeeds and the result bundle's `sortedArray` is a permutation of the
input and non-decreasing, the trace's first step's array equals the unmodified
input, and the trace's last step's array equals `sortedArray`. -/
theorem C1_sorted_permutation_and_trace_endpoints (maxSize : Nat) (arr : List Int)
    (alg : String) (h1 : arr ≠ []) (h2 : arr.length ≤ maxSize)
    (h3 : alg ∈ SortingAlgorithms.supportedIdentifiers) :
    ∃ r : SortResult, SortingAlgorithms.sort maxSize (.arr arr) alg = .ok r ∧
      r.sortedArray.Perm arr ∧ List.Sorted (· ≤ ·) r.sortedArray ∧
      r.steps.head?.map Step.array = some arr ∧
      r.steps.getLast?.map Step.array = some r.sortedArray := by
  obtain ⟨r, hr, P, S, T⟩ := sort_ok_of_valid maxSize arr alg h1 h2 h3
  refine ⟨r, hr, P, S, ?_, T.last_array⟩
  rw [T.head_eq]
  rfl

/-- Witness for C1 at maxSize 1000, input [2, 1], algorithm "bubble". -/
theorem C1_sorted_permutation_and_trace_endpoints_witness :
    (([2, 1] : List Int) ≠ [] ∧ ([2, 1] : List Int).length ≤ 1000 ∧
      "bubble" ∈ SortingAlgorithms.supportedIdentifiers) ∧
    (∃ r : SortResult, SortingAlgorithms.sort 1000 (.arr [2, 1]) "bubble" = .ok r ∧
      r.sortedArray.Perm [2, 1] ∧ List.Sorted (· ≤ ·) r.sortedArray ∧
      r.steps.head?.map Step.array = some [2, 1] ∧
      r.steps.getLast?.map Step.array = some r.sortedArray) :=
  ⟨⟨by decide, by decide, by decide⟩,
    C1_sorted_permutation_and_trace_endpoints 1000 [2, 1] "bubble" (by decide) (by decide)
      (by decide)⟩

/-- Claim C2, amended: for every valid input and each of the four algorithms the
`comparisonCount` recorded in the trace is monotonically non-decreasing from the
first step to the last, and the last step's `comparisonCount` is bounded by (not
always equal to) the bundle's `totalComparisons`. -/
theorem C2_amended_comparison_counter (maxSize : Nat) (arr : List Int) (alg : String)
    (h1 : arr ≠ []) (h2 : arr.length ≤ maxSize)
    (h3 : alg ∈ SortingAlgorithms.supportedIdentifiers) :
    ∃ r : SortResult, SortingAlgorithms.sort maxSize (.arr arr) alg = .ok r ∧
      r.steps.Pairwise (fun s t => s.comparisonCount ≤ t.comparisonCount) ∧
      (∀ s ∈ r.steps.getLast?, s.comparisonCount ≤ r.totalComparisons) := by
  obtain ⟨r, hr, _P, _S, T⟩ := sort_ok_of_valid maxSize arr alg h1 h2 h3
  haveI : IsTrans Step (fun s t => s.comparisonCount ≤ t.comparisonCount) :=
    ⟨fun _ _ _ hab hbc => le_trans hab hbc⟩
  exact ⟨r, hr, List.chain'_iff_pairwise.mp T.chain, T.last_cmp_le⟩

/-- Witness for C2 (amended) at maxSize 1000, input [2, 1], algorithm "quick". -/
theorem C2_amended_comparison_counter_witness :
    (([2, 1] : List Int) ≠ [] ∧ ([2, 1] : List Int).length ≤ 1000 ∧
      "quick" ∈ SortingAlgorithms.supportedIdentifiers) ∧
    (∃ r : SortResult, SortingAlgorithms.sort 1000 (.arr [2, 1]) "quick" = .ok r ∧
      r.steps.Pairwise (fun s t => s.comparisonCount ≤ t.comparisonCount) ∧
      (∀ s ∈ r.steps.getLast?, s.comparisonCount ≤ r.totalComparisons)) :=
  ⟨⟨by decide, by decide, by decide⟩,
    C2_amended_comparison_counter 1000 [2, 1] "quick" (by decide) (by decide) (by decide)⟩

/-- Counterexample to C2 as stated: on the valid input [1, 3, 2] the bubble
executor's last recorded step carries comparisonCount 2 while the bundle's
totalComparisons is 3, so the claimed equality fails. -/
theorem C2_counterexample :
    SortingAlgorithms.sort 1000 (.arr [1, 3, 2]) "bubble" =
      .ok (SortingAlgorithms.bubbleSort [1, 3, 2]) ∧
    (SortingAlgorithms.bubbleSort [1, 3, 2]).totalComparisons = 3 ∧
    (SortingAlgorithms.bubbleSort [1, 3, 2]).steps.getLast?.map Step.comparisonCount =
      some 2 ∧
    (SortingAlgorithms.bubbleSort [1, 3, 2]).steps.getLast?.map Step.comparisonCount ≠
      some (SortingAlgorithms.bubbleSort [1, 3, 2]).totalComparisons :=
  ⟨rfl, rfl, rfl, by decide⟩

/-- Claim C3: for every valid input of length n and each of the four algorithms,
every step of the trace other than the initial snapshot carries a `touchedIndices`
pair of two distinct zero-based indices below n, while the initial snapshot's
`touchedIndices` is absent. -/
theorem C3_touched_indices_in_bounds_and_distinct (maxSize : Nat) (arr : List Int)
    (alg : String) (h1 : arr ≠ []) (h2 : arr.length ≤ maxSize)
    (h3 : alg ∈ SortingAlgorithms.supportedIdentifiers) :
    ∃ r : SortResult, SortingAlgorithms.sort maxSize (.arr arr) alg = .ok r ∧
      r.steps.head?.map Step.swapIndices = some none ∧
      (∀ s ∈ r.steps.tail, ∃ p, s.swapIndices = some p ∧
        p.1 < arr.length ∧ p.2 < arr.length ∧ p.1 ≠ p.2) := by
  obtain ⟨r, hr, _P, _S, T⟩ := sort_ok_of_valid maxSize arr alg h1 h2 h3
  refine ⟨r, hr, ?_, T.tail_touched⟩
  rw [T.head_eq]
  rfl

/-- Witness for C3 at maxSize 1000, input [3, 1, 2], algorithm "insertion". -/
theorem C3_touched_indices_in_bounds_and_distinct_witness :
    (([3, 1, 2] : List Int) ≠ [] ∧ ([3, 1, 2] : List Int).length ≤ 1000 ∧
      "insertion" ∈ SortingAlgorithms.supportedIdentifiers) ∧
    (∃ r : SortResult, SortingAlgorithms.sort 1000 (.arr [3, 1, 2]) "insertion" = .ok r ∧
      r.steps.head?.map Step.swapIndices = some none ∧
      (∀ s ∈ r.steps.tail, ∃ p, s.swapIndices = some p ∧
        p.1 < ([3, 1, 2] : List Int).length ∧ p.2 < ([3, 1, 2] : List Int).length ∧
        p.1 ≠ p.2)) :=
  ⟨⟨by decide, by decide, by decide⟩,
    C3_touched_indices_in_bounds_and_distinct 1000 [3, 1, 2] "insertion" (by decide)
      (by decide) (by decide)⟩

/-- Claim C4: for every already non-decreasing valid input (which includes every
single-element input, as the last conjunct records) and every supported algorithm,
`sort` returns the single-step fast-path bundle with `totalComparisons = 0` —
the per-algorithm executor's work never appears in the result. -/
theorem C4_already_sorted_fast_path (maxSize : Nat) (arr : List Int) (alg : String)
    (h1 : arr ≠ []) (h2 : arr.length ≤ maxSize) (h3 : List.Sorted (· ≤ ·) arr)
    (_h4 : alg ∈ SortingAlgorithms.supportedIdentifiers) :
    SortingAlgorithms.sort maxSize (.arr arr) alg =
      .ok ⟨[⟨arr, none, 0⟩], arr, alg, 0⟩ ∧
    (∀ r : SortResult, SortingAlgorithms.sort maxSize (.arr arr) alg = .ok r →
      r.steps.length = 1 ∧ r.totalComparisons = 0) ∧
    (∀ x : Int, SortingAlgorithms.isAlreadySorted [x] = true) := by
  have h1' : arr.length ≠ 0 := fun h => h1 (List.length_eq_zero.mp h)
  have hs : SortingAlgorithms.isAlreadySorted arr = true :=
    (isAlreadySorted_iff arr).mpr ((sortedD_iff_sorted arr).mpr h3)
  have heq := sort_fastpath maxSize arr alg h1' h2 hs
  refine ⟨heq, ?_, fun x => rfl⟩
  intro r hr
  rw [heq] at hr
  simp only [Except.ok.injEq] at hr
  rw [← hr]
  exact ⟨rfl, rfl⟩

/-- Witness for C4 at maxSize 1000, input [1, 2], algorithm "insertion". -/
theorem C4_already_sorted_fast_path_witness :
    (([1, 2] : List Int) ≠ [] ∧ ([1, 2] : List Int).length ≤ 1000 ∧
      List.Sorted (· ≤ ·) ([1, 2] : List Int) ∧
      "insertion" ∈ SortingAlgorithms.supportedIdentifiers) ∧
    (SortingAlgorithms.sort 1000 (.arr [1, 2]) "insertion" =
      .ok ⟨[⟨[1, 2], none, 0⟩], [1, 2], "insertion", 0⟩ ∧
    (∀ r : SortResult, SortingAlgorithms.sort 1000 (.arr [1, 2]) "insertion" = .ok r →
      r.steps.length = 1 ∧ r.totalComparisons = 0) ∧
    (∀ x : Int, SortingAlgorithms.isAlreadySorted [x] = true)) :=
  ⟨⟨by decide, by decide, by decide, by decide⟩,
    C4_already_sorted_fast_path 1000 [1, 2] "insertion" (by decide) (by decide)
      (by decide) (by decide)⟩

/-- Counterexample to C5 as stated: the already-sorted valid input [1, 2] with the
unrecognized identifier "heap" succeeds with a single-step trace instead of
returning the UnsupportedAlgorithmKind failure, because the fast path runs before
the identifier is validated. -/
theorem C5_counterexample :
    SortingAlgorithms.sort 1000 (.arr [1, 2]) "heap" =
      .ok ⟨[⟨[1, 2], none, 0⟩], [1, 2], "heap", 0⟩ ∧
    SortingAlgorithms.sort 1000 (.arr [1, 2]) "heap" ≠
      .error SortFailure.UnsupportedAlgorithmKind := by
  have base : SortingAlgorithms.sort 1000 (.arr [1, 2]) "heap" =
      .ok ⟨[⟨[1, 2], none, 0⟩], [1, 2], "heap", 0⟩ := rfl
  refine ⟨base, fun h => ?_⟩
  rw [base] at h
  exact Except.noConfusion h

/-- Claim C5, amended: for every valid input sequence that is not already
non-decreasing, calling `sort` with an identifier outside the enumerated set
(such as "heap") returns the UnsupportedAlgorithmKind failure — and, this being
an `Except.error`, no trace is produced. -/
theorem C5_amended_unsupported_identifier (maxSize : Nat) (arr : List Int)
    (alg : String) (h1 : arr ≠ []) (h2 : arr.length ≤ maxSize)
    (h3 : SortingAlgorithms.isAlreadySorted arr = false)
    (h4 : SortingAlgorithms.toLowerCase alg ∉ SortingAlgorithms.supportedIdentifiers) :
    SortingAlgorithms.sort maxSize (.arr arr) alg =
      .error SortFailure.UnsupportedAlgorithmKind := by
  have h1' : arr.length ≠ 0 := fun h => h1 (List.length_eq_zero.mp h)
  rw [sort_dispatch_eq maxSize arr alg h1' h2 h3]
  split
  next heq => exact absurd (by rw [heq]; simp [SortingAlgorithms.supportedIdentifiers]) h4
  next heq => exact absurd (by rw [heq]; simp [SortingAlgorithms.supportedIdentifiers]) h4
  next heq => exact absurd (by rw [heq]; simp [SortingAlgorithms.supportedIdentifiers]) h4
  next heq => exact absurd (by rw [heq]; simp [SortingAlgorithms.supportedIdentifiers]) h4
  next => rfl

/-- Witness for C5 (amended) at maxSize 1000, unsorted input [2, 1], identifier
"heap". -/
theorem C5_amended_unsupported_identifier_witness :
    (([2, 1] : List Int) ≠ [] ∧ ([2, 1] : List Int).length ≤ 1000 ∧
      SortingAlgorithms.isAlreadySorted [2, 1] = false ∧
      SortingAlgorithms.toLowerCase "heap" ∉ SortingAlgorithms.supportedIdentifiers) ∧
    SortingAlgorithms.sort 1000 (.arr [2, 1]) "heap" =
      .error SortFailure.UnsupportedAlgorithmKind :=
  ⟨⟨by decide, by decide, by decide, by decide⟩,
    C5_amended_unsupported_identifier 1000 [2, 1] "heap" (by decide) (by decide)
      (by decide) (by decide)⟩

/-- Claim C6: the dispatcher's precondition checks fail with distinct typed
failures and, the failures being `Except.error`s, no partial trace is produced: a
non-array input yields InvalidInputKind, an empty sequence yields EmptyInputKind,
and a sequence longer than the configured maximum yields SizeLimitExceededKind. -/
theorem C6_validation_failures (maxSize : Nat) (alg : String) (arr : List Int)
    (h : arr.length > maxSize) :
    SortingAlgorithms.sort maxSize .nonArray alg = .error SortFailure.InvalidInputKind ∧
    SortingAlgorithms.sort maxSize (.arr []) alg = .error SortFailure.EmptyInputKind ∧
    SortingAlgorithms.sort maxSize (.arr arr) alg =
      .error SortFailure.SizeLimitExceededKind ∧
    SortFailure.InvalidInputKind ≠ SortFailure.EmptyInputKind ∧
    SortFailure.InvalidInputKind ≠ SortFailure.SizeLimitExceededKind ∧
    SortFailure.EmptyInputKind ≠ SortFailure.SizeLimitExceededKind := by
  refine ⟨rfl, rfl, ?_, by decide, by decide, by decide⟩
  simp only [SortingAlgorithms.sort]
  rw [if_neg (by omega), if_pos h]

/-- Witness for C6 at maxSize 1, algorithm "bubble", oversized input [1, 2]. -/
theorem C6_validation_failures_witness :
    (([1, 2] : List Int).length > 1) ∧
    (SortingAlgorithms.sort 1 .nonArray "bubble" = .error SortFailure.InvalidInputKind ∧
    SortingAlgorithms.sort 1 (.arr []) "bubble" = .error SortFailure.EmptyInputKind ∧
    SortingAlgorithms.sort 1 (.arr [1, 2]) "bubble" =
      .error SortFailure.SizeLimitExceededKind ∧
    SortFailure.InvalidInputKind ≠ SortFailure.EmptyInputKind ∧
    SortFailure.InvalidInputKind ≠ SortFailure.SizeLimitExceededKind ∧
    SortFailure.EmptyInputKind ≠ SortFailure.SizeLimitExceededKind) :=
  ⟨by decide, C6_validation_failures 1 "bubble" [1, 2] (by decide)⟩

/-- Counterexample to C7 as stated: bubble sort on [5, 3, 1, 4, 2] records 7 swap
steps after the initial snapshot, not 4. -/
theorem C7_counterexample :
    (SortingAlgorithms.sort 1000 (.arr [5, 3, 1, 4, 2]) "bubble").toOption.map
      (fun r => r.steps.tail.length) = some 7 ∧
    (SortingAlgorithms.sort 1000 (.arr [5, 3, 1, 4, 2]) "bubble").toOption.map
      (fun r => r.steps.tail.length) ≠ some 4 :=
  ⟨rfl, by decide⟩

/-- Claim C7, amended: on input [5, 3, 1, 4, 2] with algorithm bubble the result
has finalArray [1, 2, 3, 4, 5], totalComparisons 10 (no early exit skips the last
pass's lone comparison), and exactly 7 swap-steps after the initial snapshot, the
first being touchedIndices (0, 1) with array snapshot [3, 5, 1, 4, 2] at
comparison count 1. -/
theorem C7_amended_bubble_golden_trace :
    SortingAlgorithms.sort 1000 (.arr [5, 3, 1, 4, 2]) "bubble" =
      .ok (SortingAlgorithms.bubbleSort [5, 3, 1, 4, 2]) ∧
    (SortingAlgorithms.bubbleSort [5, 3, 1, 4, 2]).sortedArray = [1, 2, 3, 4, 5] ∧
    (SortingAlgorithms.bubbleSort [5, 3, 1, 4, 2]).totalComparisons = 10 ∧
    (SortingAlgorithms.bubbleSort [5, 3, 1, 4, 2]).steps.tail.length = 7 ∧
    (∀ s ∈ (SortingAlgorithms.bubbleSort [5, 3, 1, 4, 2]).steps.tail,
      s.swapIndices.isSome = true) ∧
    (SortingAlgorithms.bubbleSort [5, 3, 1, 4, 2]).steps.getD 1 ⟨[], none, 0⟩ =
      ⟨[3, 5, 1, 4, 2], some (0, 1), 1⟩ :=
  ⟨rfl, rfl, rfl, rfl, by decide, rfl⟩

/-- Claim C8: the insertion executor realises exactly the specification's step
semantics — one comparison per left neighbor examined while shifting, one
recorded step per leftward shift with touchedIndices [j, j+1], and one final
key-placement step with touchedIndices [restingIndex, i] exactly when the
resting index differs from i — stated as trace-level equality with the model
built from the specification's words. -/
theorem C8_insertion_matches_spec_steps (arr : List Int) :
    SortingAlgorithms.insertionSort arr = insertionSortSpecModel arr := by
  unfold SortingAlgorithms.insertionSort insertionSortSpecModel
  dsimp only
  rw [insOuter_eq_spec]

/-- Claim C10: the already-sorted fast path precedes identifier validation — for
every already non-decreasing valid input and arbitrary identifier string
(including ones outside the enumerated set, such as "heap"), `sort` returns the
successful single-step bundle labeled with that identifier and
`totalComparisons = 0` instead of an UnsupportedAlgorithmKind failure. -/
theorem C10_fastpath_precedes_identifier_validation (maxSize : Nat) (arr : List Int)
    (alg : String) (h1 : arr ≠ []) (h2 : arr.length ≤ maxSize)
    (h3 : List.Sorted (· ≤ ·) arr) :
    SortingAlgorithms.sort maxSize (.arr arr) alg =
      .ok ⟨[⟨arr, none, 0⟩], arr, alg, 0⟩ := by
  have h1' : arr.length ≠ 0 := fun h => h1 (List.length_eq_zero.mp h)
  exact sort_fastpath maxSize arr alg h1' h2
    ((isAlreadySorted_iff arr).mpr ((sortedD_iff_sorted arr).mpr h3))

/-- Witness for C10 at maxSize 1000, sorted input [1, 2], identifier "heap". -/
theorem C10_fastpath_precedes_identifier_validation_witness :
    (([1, 2] : List Int) ≠ [] ∧ ([1, 2] : List Int).length ≤ 1000 ∧
      List.Sorted (· ≤ ·) ([1, 2] : List Int)) ∧
    SortingAlgorithms.sort 1000 (.arr [1, 2]) "heap" =
      .ok ⟨[⟨[1, 2], none, 0⟩], [1, 2], "heap", 0⟩ :=
  ⟨⟨by decide, by decide, by decide⟩,
    C10_fastpath_precedes_identifier_validation 1000 [1, 2] "heap" (by decide)
      (by decide) (by decide)⟩
